import Mathlib

/-!
Verification of the module-resolution core of the aiken project
(`crates/aiken-project/src/module.rs`): dependency-graph sequencing of parsed
modules (`ParsedModules::sequence`, petgraph's `algo::toposort`, `find_cycle`),
validator enumeration (`CheckedModules::validators`) and global symbol-table
aggregation (`CheckedModules::new_generator`).

Modelling conventions:
- `HashMap<String, ParsedModule>` iteration order is unspecified, so a module
  set is embedded as a `List` of modules; theorems quantify over the list, which
  ranges over all possible iteration orders.
- petgraph's `Graph<(), ()>` is embedded as a node count plus the list of edges
  in insertion order.  petgraph iterates the outgoing neighbors of a node in
  reverse order of edge insertion (each new edge becomes the head of the node's
  adjacency list); `DGraph.neighbors` reproduces that order.
- petgraph's `algo::toposort` is a depth-first search driven by an explicit
  stack: when a node is first popped it is marked discovered and its
  not-yet-discovered neighbors are pushed (in neighbor order, so they are
  processed in edge-insertion order, the neighbor order being itself reversed);
  a self edge raises `Cycle(node)` at that moment.  When a node is popped a
  second time it is marked finished, and if one of its successors is not
  finished `Cycle(node)` is raised; otherwise the node is appended to the
  finish stack.  The final result is the reversed finish stack.  `run` embeds
  this search as a fuel-indexed recursion whose two task kinds are the two
  phases (visiting one node / folding over a successor list); the fuel is made
  structurally decreasing so that the kernel can evaluate it, and is proved
  sufficient for the graphs `sequence` builds.
- Rust machine integers index nodes; counts here are small `Nat`s and no
  overflow behavior is observable.
-/

namespace Aiken

/-- One parsed module, reduced to the data `ParsedModules::sequence` consumes:
its map key / `name`, and the module identifiers its AST imports
(`self.ast.dependencies()`, produced by the out-of-scope parser). -/
structure ParsedModule where
  name : String
  deps : List String
  deriving DecidableEq

/-- `ParsedModule::deps_for_graph`: the (identifier, imported identifiers)
pair fed to the graph builder. -/
def ParsedModule.deps_for_graph (m : ParsedModule) : String × List String :=
  (m.name, m.deps)

/-- Directed graph as built by `sequence`: nodes are `0, ..., numNodes - 1` in
creation order, `edges` is the list of directed edges in insertion order. -/
structure DGraph where
  numNodes : Nat
  edges : List (Nat × Nat)
  deriving DecidableEq

/-- Successors of `v` in edge-insertion order. -/
def DGraph.succs (g : DGraph) (v : Nat) : List Nat :=
  (g.edges.filter (fun e => e.1 == v)).map (fun e => e.2)

/-- Outgoing neighbors of `v` in petgraph's iteration order: reverse order of
edge insertion. -/
def DGraph.neighbors (g : DGraph) (v : Nat) : List Nat :=
  (g.succs v).reverse

/-- State of petgraph's toposort DFS: the discovered visit-map, the finished
visit-map, and the finish stack (`order`, earliest finished first). -/
structure TState where
  discovered : List Nat
  finished : List Nat
  order : List Nat
  deriving DecidableEq

/-- The two phases of the toposort DFS: visiting one node, or working through
a list of successors of an already-discovered node. -/
inductive TTask where
  | visit (v : Nat)
  | fold (l : List Nat)
  deriving DecidableEq

/-- One run of petgraph's toposort DFS from a given task.  `visit v` marks `v`
discovered, raises `Cycle v` on a self edge, folds over the successors of `v`
(recursing into the not-yet-discovered ones), then marks `v` finished, raises
`Cycle v` if some successor is unfinished, and otherwise appends `v` to the
finish stack.  `none` means the fuel ran out (never happens for the fuel
`sequence` supplies, see `run_total`). -/
def run (g : DGraph) : Nat → TTask → TState → Option (Except Nat TState)
  | 0, _, _ => none
  | fuel + 1, .visit v, st =>
    let st1 : TState := { st with discovered := v :: st.discovered }
    let ss := g.succs v
    if v ∈ ss then some (.error v)
    else
      match run g fuel (.fold ss) st1 with
      | none => none
      | some (.error e) => some (.error e)
      | some (.ok st2) =>
        let st3 : TState := { st2 with finished := v :: st2.finished }
        if ∀ s ∈ ss, s ∈ st3.finished then
          some (.ok { st3 with order := st3.order ++ [v] })
        else some (.error v)
  | _ + 1, .fold [], st => some (.ok st)
  | fuel + 1, .fold (s :: rest), st =>
    if s ∈ st.discovered then run g fuel (.fold rest) st
    else
      match run g fuel (.visit s) st with
      | none => none
      | some (.error e) => some (.error e)
      | some (.ok st') => run g fuel (.fold rest) st'

/-- Fuel sufficient for any toposort DFS run on `g` (proved by `run_total`). -/
def topoFuel (g : DGraph) : Nat :=
  (g.numNodes + 1) * (g.edges.length + 2)

/-- The outer loop of petgraph's toposort: try every node identifier in
creation order, skipping the ones already discovered. -/
def topoLoop (g : DGraph) : List Nat → TState → Option (Except Nat TState)
  | [], st => some (.ok st)
  | v :: rest, st =>
    if v ∈ st.discovered then topoLoop g rest st
    else
      match run g (topoFuel g) (.visit v) st with
      | none => none
      | some (.error e) => some (.error e)
      | some (.ok st') => topoLoop g rest st'

/-- petgraph's `algo::toposort`: `.ok` with the reversed finish stack (every
node ordered before its successors), or `.error` with a node lying on a cycle.
The fuel-exhaustion branch is unreachable for the graphs `sequence` builds
(`topoLoop_total`) and returns a sentinel. -/
def toposort (g : DGraph) : Except Nat (List Nat) :=
  match topoLoop g (List.range g.numNodes) ⟨[], [], []⟩ with
  | some (.ok st) => .ok st.order.reverse
  | some (.error e) => .error e
  | none => .error g.numNodes

/-- The two phases of `find_cycle`: entering a node (inserting it into `seen`
and starting on its neighbors), or scanning a remaining neighbor list. -/
inductive CTask where
  | start (parent : Nat)
  | scan (ns : List Nat)
  deriving DecidableEq

/-- `find_cycle` of module.rs, fuel-indexed: a depth-first search from
`origin` following outgoing edges (in petgraph neighbor order); a neighbor
equal to `origin` is pushed and success is propagated, pushing each node of
the successful branch while unwinding.  Returns (found, path, seen).  `none`
means the fuel ran out (never happens for the fuel `sequence` supplies). -/
def findCycleRun (g : DGraph) (origin : Nat) :
    Nat → CTask → List Nat → List Nat → Option (Bool × List Nat × List Nat)
  | 0, _, _, _ => none
  | fuel + 1, .start parent, path, seen =>
    findCycleRun g origin fuel (.scan (g.neighbors parent)) path (parent :: seen)
  | _ + 1, .scan [], path, seen => some (false, path, seen)
  | fuel + 1, .scan (node :: rest), path, seen =>
    if node = origin then some (true, path ++ [node], seen)
    else if node ∈ seen then findCycleRun g origin fuel (.scan rest) path seen
    else
      match findCycleRun g origin fuel (.start node) path seen with
      | none => none
      | some (true, path1, seen1) => some (true, path1 ++ [node], seen1)
      | some (false, path1, seen1) => findCycleRun g origin fuel (.scan rest) path1 seen1

/-- `find_cycle(origin, origin, &graph, &mut vec![], &mut HashSet::new())`,
with sufficient fuel. -/
def find_cycle (g : DGraph) (origin : Nat) : Option (Bool × List Nat × List Nat) :=
  findCycleRun g origin (topoFuel g) (.start origin) [] []

/-- `indices.get(..)` for the name-to-index `HashMap` that `sequence` builds by
inserting each input name with the next node index: on duplicate names the
later insert overwrites, so the last matching index wins. -/
def idxOf (names : List String) (x : String) : Option Nat :=
  ((names.enum.filter (fun p => p.2 == x)).getLast?).map Prod.fst

/-- `HashMap::remove` on the index-to-name map: returns the mapped name and
the map without that entry, or `none` if the key is absent. -/
def removeFirst (vals : List (Nat × String)) (k : Nat) :
    Option (String × List (Nat × String)) :=
  match vals with
  | [] => none
  | (k1, v) :: rest =>
    if k1 = k then some (v, rest)
    else (removeFirst rest k).map (fun r => (r.1, (k1, v) :: r.2))

/-- `keys.iter().filter_map(|index| values.remove(index)).collect()`. -/
def removeFold (keys : List Nat) (vals : List (Nat × String)) : List String :=
  match keys with
  | [] => []
  | k :: ks =>
    match removeFirst vals k with
    | some r => r.1 :: removeFold ks r.2
    | none => removeFold ks vals

/-- The edges contributed by one input row: if the row's own name resolves in
the name-to-index map, one edge per dependency that resolves (imports that
resolve to no node are skipped). -/
def buildRow (names : List String) (p : String × List String) : List (Nat × Nat) :=
  match idxOf names p.1 with
  | some fromIdx =>
    p.2.filterMap (fun dep => (idxOf names dep).map (fun toIdx => (fromIdx, toIdx)))
  | none => []

/-- The dependency graph `sequence` builds: one node per input in order, and
for each input's dependency that resolves in the name-to-index map, an edge
from the input's node to the dependency's node. -/
def buildEdges (inputs : List (String × List String)) : List (Nat × Nat) :=
  inputs.flatMap (buildRow (inputs.map Prod.fst))

/-- The graph over a `deps_for_graph` input list. -/
def seqGraph (inputs : List (String × List String)) : DGraph :=
  ⟨inputs.length, buildEdges inputs⟩

/-- `ParsedModules::sequence`: build the dependency graph, toposort it; on
success map the sorted node indices back to names through the index-to-name
map and reverse (dependencies first); on a cycle, reconstruct one cyclic path
with `find_cycle` from the node the sort reported and map it to names — the
error carries `ImportCycle { modules }`. -/
def sequence (ms : List ParsedModule) : Except (List String) (List String) :=
  let inputs := ms.map ParsedModule.deps_for_graph
  let names := inputs.map Prod.fst
  let vals := names.enum
  let g := seqGraph inputs
  match toposort g with
  | .ok order => .ok (removeFold order vals).reverse
  | .error origin =>
    match find_cycle g origin with
    | some r => .error (removeFold r.2.1 vals)
    | none => .error []

/-- Edge-of-the-graph relation (in the direction "importer to imported"). -/
def DGraph.edge (g : DGraph) (a b : Nat) : Prop := (a, b) ∈ g.edges

/-- Nonempty directed path relation of the graph. -/
def DGraph.Reaches (g : DGraph) : Nat → Nat → Prop :=
  Relation.TransGen g.edge

/-- The graph has a directed cycle. -/
def DGraph.Cyclic (g : DGraph) : Prop := ∃ v, g.Reaches v v

/-- Name-level import edge over a module set: module `a` of the set imports
`b`, and `b` is itself present in the set (edges to absent identifiers are
dropped by the graph builder). -/
def importEdge (ms : List ParsedModule) (a b : String) : Prop :=
  ∃ m ∈ ms, m.name = a ∧ b ∈ m.deps ∧ b ∈ ms.map ParsedModule.name

instance (ms : List ParsedModule) (a b : String) : Decidable (importEdge ms a b) := by
  unfold importEdge
  infer_instance

/-- The module set's dependency graph (restricted to identifiers present in
the set) has a cycle. -/
def NameCyclic (ms : List ParsedModule) : Prop :=
  ∃ a, Relation.TransGen (importEdge ms) a a

/-- `l'` is `l` with one element duplicated in place (the shape a duplicated
dependency occurrence gives every derived list: dependency rows, edge lists,
successor lists, neighbor lists). -/
def dup1 {α : Type} (l l' : List α) : Prop :=
  ∃ pre x post, l = pre ++ x :: post ∧ l' = pre ++ x :: x :: post

/-- Two lists equal up to one in-place duplication. -/
def listRel {α : Type} (l l' : List α) : Prop :=
  l' = l ∨ dup1 l l'

/-! ## Checked modules, validator enumeration, symbol aggregation -/

/-- Module kinds.  Modelled from the spec: "module kind (library /
validator-bearing / test)"; the `ModuleKind` enum itself lives in aiken-lang,
outside src/.  Only `is_validator` (true exactly on the validator-bearing
kind) is observed by this core. -/
inductive ModuleKind where
  | Lib
  | Validator
  | Test
  deriving DecidableEq

/-- `ModuleKind::is_validator`. -/
def ModuleKind.is_validator : ModuleKind → Bool
  | .Validator => true
  | _ => false

/-- A typed function definition (aiken-lang's `TypedFunction`, outside src/),
reduced to what this core observes: its `name`, plus an opaque tag standing
for the rest of the definition so that distinct definitions stay
distinguishable. -/
structure TypedFunction where
  name : String
  body : Nat
  deriving DecidableEq

/-- A typed data-type definition (`TypedDataType`), reduced likewise to its
`name` and an opaque tag. -/
structure TypedDataType where
  name : String
  body : Nat
  deriving DecidableEq

/-- A validator definition (`TypedValidator`): the main handler (`fun` in the
source, a reserved word here) and the optional second handler `other_fun`. -/
structure TypedValidator where
  funDef : TypedFunction
  other_fun : Option TypedFunction
  deriving DecidableEq

/-- `aiken_lang::ast::Definition` (outside src/), with the payloads this core
observes; the constructors are exactly the ones `new_generator` and
`validators` match on. -/
inductive Definition where
  | Fn (f : TypedFunction)
  | DataType (d : TypedDataType)
  | TypeAlias (t : Nat)
  | ModuleConstant (c : Nat)
  | Test (t : TypedFunction)
  | Validator (v : TypedValidator)
  | Use (u : Nat)
  deriving DecidableEq

/-- A module after semantic analysis, reduced to the fields this core reads:
map key / `name`, raw source `code`, `kind`, owning `package`, and the typed
definitions `self.ast.definitions()`. -/
structure CheckedModule where
  name : String
  code : String
  kind : ModuleKind
  package : String
  ast : List Definition
  deriving DecidableEq

/-- `FunctionAccessKey { module_name, function_name }`. -/
structure FunctionAccessKey where
  module_name : String
  function_name : String
  deriving DecidableEq

/-- `DataTypeKey { module_name, defined_type }`. -/
structure DataTypeKey where
  module_name : String
  defined_type : String
  deriving DecidableEq

/-- `IndexMap::insert`: if the key is already present its value is replaced in
place, otherwise the pair is appended. -/
def imInsert {K V : Type} [DecidableEq K] (m : List (K × V)) (k : K) (v : V) :
    List (K × V) :=
  match m with
  | [] => [(k, v)]
  | (k1, v1) :: rest => if k1 = k then (k, v) :: rest else (k1, v1) :: imInsert rest k v

/-- Map lookup (first matching key; `imInsert` keeps keys unique). -/
def imLookup {K V : Type} [DecidableEq K] (m : List (K × V)) (k : K) : Option V :=
  (m.find? (fun p => decide (p.1 = k))).map Prod.snd

/-- An `IndexMap` built by inserting a list of entries in order (on duplicate
keys the later value wins, keeping the first position). -/
def imFromList {K V : Type} [DecidableEq K] (l : List (K × V)) : List (K × V) :=
  l.foldl (fun acc p => imInsert acc p.1 p.2) []

/-- The sort key of one collected validator: the lexicographic triple
(owning package name, owning module identifier, validator function name). -/
def vkey (p : CheckedModule × TypedValidator) : String × String × String :=
  (p.1.package, p.1.name, p.2.funDef.name)

/-- Rust's derived tuple order on `(String, String, String)` (lexicographic),
as the "less or equal" relation the sort uses. -/
def tripleLe (a b : String × String × String) : Prop :=
  a.1 < b.1 ∨ (a.1 = b.1 ∧ (a.2.1 < b.2.1 ∨ (a.2.1 = b.2.1 ∧ a.2.2 ≤ b.2.2)))

instance : DecidableRel tripleLe := by
  intro a b
  unfold tripleLe
  infer_instance

/-- The relation `validators` sorts by. -/
def vle (a b : CheckedModule × TypedValidator) : Prop := tripleLe (vkey a) (vkey b)

instance : DecidableRel vle := by
  intro a b
  unfold vle
  infer_instance

/-- The validator (module, definition) pairs of a checked-module set, in
collection order: for every module whose kind marks it validator-bearing (in
map iteration order, embedded as list order), each `Definition::Validator` of
its definition list. -/
def validatorItems (ms : List CheckedModule) :
    List (CheckedModule × TypedValidator) :=
  (ms.filter (fun m => m.kind.is_validator)).flatMap
    (fun m => m.ast.filterMap (fun d =>
      match d with
      | .Validator v => some (m, v)
      | _ => none))

/-- `CheckedModules::validators`: collect all validator definitions of
validator-kind modules and stable-sort them by the lexicographic triple
(package, module identifier, validator function name).  Rust's `sort_by` is a
stable sort; it is embedded as insertion sort (any stable sort agrees on the
result). -/
def validators (ms : List CheckedModule) :
    List (CheckedModule × TypedValidator) :=
  (validatorItems ms).insertionSort vle

/-- Line-offset index of a module's source text (`LineNumbers::new`, outside
src/).  Modelled from the spec: a "derived line-offset index (mapping byte
offsets to line/column)"; embedded as the list of line-start offsets. -/
def lineStartsAux : List Char → Nat → List Nat
  | [], _ => []
  | c :: rest, i =>
    if c = '\n' then (i + 1) :: lineStartsAux rest (i + 1)
    else lineStartsAux rest (i + 1)

/-- `LineNumbers::new(&module.code)`: offset 0 plus the offset after each
newline. -/
def lineNumbers (code : String) : List Nat := 0 :: lineStartsAux code.data 0

/-- The `CodeGenerator` assembled by `new_generator` (`CodeGenerator::new` is
outside src/; it is embedded as the record of the arguments handed to it). -/
structure CodeGenerator where
  functions : List (FunctionAccessKey × TypedFunction)
  data_types : List (DataTypeKey × TypedDataType)
  module_types : List (String × Nat)
  module_src : List (String × (String × List Nat))
  tracing : Bool
  deriving DecidableEq

/-- One module's contribution to the global function map: insert every
`Definition::Fn` under `FunctionAccessKey { module_name, function_name }`,
in definition order; every other definition kind is skipped. -/
def collectFns (acc : List (FunctionAccessKey × TypedFunction))
    (m : CheckedModule) : List (FunctionAccessKey × TypedFunction) :=
  m.ast.foldl (fun a d =>
    match d with
    | .Fn f => imInsert a ⟨m.name, f.name⟩ f
    | _ => a) acc

/-- One module's contribution to the global data-type map: insert every
`Definition::DataType` under `DataTypeKey { module_name, defined_type }`,
in definition order; every other definition kind is skipped. -/
def collectDts (acc : List (DataTypeKey × TypedDataType))
    (m : CheckedModule) : List (DataTypeKey × TypedDataType) :=
  m.ast.foldl (fun a d =>
    match d with
    | .DataType dt => imInsert a ⟨m.name, dt.name⟩ dt
    | _ => a) acc

/-- `CheckedModules::new_generator`: seed the function and data-type maps with
every builtin entry, then scan every checked module (map iteration order,
embedded as list order), inserting its `Fn` definitions into the function map
and its `DataType` definitions into the data-type map (same-key inserts
overwrite silently), and recording the module's source text and line-offset
index; bundle everything with the externally supplied module types and
tracing configuration into the code generator.  The source interleaves the
three per-module updates in one loop; as they touch three disjoint maps they
are embedded as three folds. -/
def new_generator (ms : List CheckedModule)
    (builtin_functions : List (FunctionAccessKey × TypedFunction))
    (builtin_data_types : List (DataTypeKey × TypedDataType))
    (module_types : List (String × Nat))
    (tracing : Bool) : CodeGenerator :=
  let functions := ms.foldl collectFns (imFromList builtin_functions)
  let data_types := ms.foldl collectDts (imFromList builtin_data_types)
  let module_src :=
    ms.foldl (fun acc m => imInsert acc m.name (m.code, lineNumbers m.code)) []
  ⟨functions, data_types, module_types, module_src, tracing⟩

/-- The value of the last entry of `l` carrying key `k`, if any. -/
def lastMatch {K V : Type} [DecidableEq K] (l : List (K × V)) (k : K) : Option V :=
  ((l.filter (fun p => decide (p.1 = k))).getLast?).map Prod.snd

/-- The `(qualified key, function)` pairs one module contributes, in
definition order. -/
def fnEntriesOf (m : CheckedModule) : List (FunctionAccessKey × TypedFunction) :=
  m.ast.filterMap (fun d =>
    match d with
    | .Fn f => some (⟨m.name, f.name⟩, f)
    | _ => none)

/-- The `(qualified key, data type)` pairs one module contributes, in
definition order. -/
def dtEntriesOf (m : CheckedModule) : List (DataTypeKey × TypedDataType) :=
  m.ast.filterMap (fun d =>
    match d with
    | .DataType dt => some (⟨m.name, dt.name⟩, dt)
    | _ => none)

/-- All `(qualified key, function)` pairs contributed by the user modules, in
insertion order. -/
def userFnEntries (ms : List CheckedModule) :
    List (FunctionAccessKey × TypedFunction) :=
  ms.flatMap fnEntriesOf

/-- All `(qualified key, data type)` pairs contributed by the user modules,
in insertion order. -/
def userDtEntries (ms : List CheckedModule) :
    List (DataTypeKey × TypedDataType) :=
  ms.flatMap dtEntriesOf

/-- The value the user modules leave under a qualified function key: the last
definition inserted with exactly that key, if any. -/
def userFnValue (ms : List CheckedModule) (k : FunctionAccessKey) :
    Option TypedFunction :=
  lastMatch (userFnEntries ms) k

/-- The value the user modules leave under a qualified data-type key. -/
def userDtValue (ms : List CheckedModule) (k : DataTypeKey) :
    Option TypedDataType :=
  lastMatch (userDtEntries ms) k

/-- Whether a definition is of one of the two kinds that `new_generator`
collects into its global maps (`Fn` or `DataType`). -/
def isCollectedDef (d : Definition) : Bool :=
  match d with
  | .Fn _ => true
  | .DataType _ => true
  | _ => false

/-- A module stripped of every definition that `new_generator` does not
collect: only its `Fn` and `DataType` definitions are kept. -/
def keepCollected (m : CheckedModule) : CheckedModule :=
  { m with ast := m.ast.filter isCollectedDef }

/-! ## Invariants of the toposort DFS -/

/-- A node is gray while it is discovered but not yet finished (it lies on
the current search branch). -/
def gray (st : TState) (x : Nat) : Prop :=
  x ∈ st.discovered ∧ x ∉ st.finished

/-- Every element of a list has all its successors strictly earlier in the
list. -/
def OrdClosed (g : DGraph) (l : List Nat) : Prop :=
  ∀ l1 x l2, l = l1 ++ x :: l2 → ∀ s ∈ g.succs x, s ∈ l1

/-- Well-formedness of a DFS state: the finish stack lists exactly the
finished nodes, without duplicates, finished nodes are discovered, and the
finish stack is closed under successors. -/
def WfSt (g : DGraph) (st : TState) : Prop :=
  (∀ x, x ∈ st.finished ↔ x ∈ st.order) ∧ st.order.Nodup ∧
    (∀ x ∈ st.finished, x ∈ st.discovered) ∧ OrdClosed g st.order

/-- All edges point between valid node indices. -/
def RangeOK (g : DGraph) : Prop :=
  ∀ e ∈ g.edges, e.1 < g.numNodes ∧ e.2 < g.numNodes

/-- Precondition of a DFS task: a node is visited only when not yet
discovered. -/
def taskPre (task : TTask) (st : TState) : Prop :=
  match task with
  | .visit v => v ∉ st.discovered
  | .fold _ => True

theorem mem_succs {g : DGraph} {v s : Nat} :
    s ∈ g.succs v ↔ (v, s) ∈ g.edges := by
  simp only [DGraph.succs, List.mem_map, List.mem_filter, beq_iff_eq]
  constructor
  · rintro ⟨⟨a, b⟩, ⟨hmem, rfl⟩, rfl⟩
    exact hmem
  · intro h
    exact ⟨(v, s), ⟨h, rfl⟩, rfl⟩

theorem ordClosed_nil {g : DGraph} : OrdClosed g [] := by
  intro l1 x l2 h
  exact absurd h (by simp)

theorem ordClosed_append {g : DGraph} {l : List Nat} {v : Nat}
    (h : OrdClosed g l) (hv : ∀ s ∈ g.succs v, s ∈ l) :
    OrdClosed g (l ++ [v]) := by
  intro l1 x l2 heq s hs
  rcases l2.eq_nil_or_concat with rfl | ⟨l2h, a, rfl⟩
  · have heq1 : l ++ [v] = l1 ++ [x] := heq
    have hlen : l.length = l1.length := by
      have := congrArg List.length heq1
      simp at this
      omega
    obtain ⟨rfl, h2⟩ := List.append_inj heq1 hlen
    obtain rfl : v = x := by simpa using h2
    exact hv s hs
  · have heq2 : l ++ [v] = (l1 ++ x :: l2h) ++ [a] := by simpa using heq
    have hlen : l.length = (l1 ++ x :: l2h).length := by
      have := congrArg List.length heq2
      simp at this
      simp
      omega
    obtain ⟨h1, h2⟩ := List.append_inj heq2 hlen
    exact h l1 x l2h h1 s hs

/-- Master invariant of a successful DFS run: the discovered and finished
sets only grow, the finish stack only gets appended to, the set of gray nodes
is preserved, well-formedness is preserved, and the task's own node(s) end up
finished / discovered. -/
theorem run_ok_main (g : DGraph) : ∀ fuel task st st1,
    run g fuel task st = some (.ok st1) → taskPre task st →
    (∀ x ∈ st.discovered, x ∈ st1.discovered) ∧
    (∀ x ∈ st.finished, x ∈ st1.finished) ∧
    (∃ t, st1.order = st.order ++ t) ∧
    (∀ x, gray st1 x ↔ gray st x) ∧
    (WfSt g st → WfSt g st1) ∧
    (match task with
     | .visit v => v ∈ st1.finished ∧ v ∈ st1.discovered
     | .fold l => ∀ s ∈ l, s ∈ st1.discovered) := by
  intro fuel
  induction fuel with
  | zero => intro task st st1 h; exact absurd h (by simp [run])
  | succ fuel ih =>
    intro task st st1 h hpre
    cases task with
    | visit v =>
      simp only [run] at h
      by_cases hself : v ∈ g.succs v
      · simp [hself] at h
      simp only [if_neg hself] at h
      cases hrun : run g fuel (.fold (g.succs v)) { st with discovered := v :: st.discovered } with
      | none => rw [hrun] at h; simp at h
      | some r =>
        rw [hrun] at h
        cases r with
        | error e => simp at h
        | ok st2 =>
          simp only at h
          by_cases hfin : ∀ s ∈ g.succs v, s ∈ v :: st2.finished
          case neg =>
            rw [if_neg ?_] at h
            · simp at h
            · simpa using hfin
          rw [if_pos (by simpa using hfin)] at h
          have hst1 : (⟨st2.discovered, v :: st2.finished, st2.order ++ [v]⟩ : TState) = st1 := by
            injection h with h1
            injection h1
          subst hst1
          obtain ⟨hd, hf, ⟨t, ht⟩, hgray, hwf, _⟩ :=
            ih (.fold (g.succs v)) { st with discovered := v :: st.discovered } st2 hrun trivial
          have hvdisc : v ∈ st2.discovered := hd v (by simp)
          refine ⟨?_, ?_, ?_, ?_, ?_, ?_⟩
          · intro x hx
            exact hd x (by simp [hx])
          · intro x hx
            simp only [List.mem_cons]
            exact Or.inr (hf x hx)
          · exact ⟨t ++ [v], by simp [ht]⟩
          · intro x
            simp only [gray]
            constructor
            · rintro ⟨hxd, hxf⟩
              simp only [List.mem_cons, not_or] at hxf
              have hg2 := (hgray x).mp ⟨hxd, hxf.2⟩
              simp only [gray, List.mem_cons] at hg2
              rcases hg2.1 with rfl | hxd2
              · exact absurd rfl hxf.1
              · exact ⟨hxd2, hg2.2⟩
            · rintro ⟨hxd, hxf⟩
              have hxv : x ≠ v := fun hc => hpre (hc ▸ hxd)
              have hg2 := (hgray x).mpr ⟨by simp [hxd], hxf⟩
              exact ⟨hg2.1, by simp [hxv, hg2.2]⟩
          · intro hwfst
            obtain ⟨v1, v2, v3, v4⟩ := hwfst
            have hwf2 := hwf ⟨v1, v2, fun x hx => by simp [v3 x hx], v4⟩
            obtain ⟨w1, w2, w3, w4⟩ := hwf2
            have hvnf : v ∉ st.finished := fun hc => hpre (v3 v hc)
            have hvgray : gray st2 v := (hgray v).mpr ⟨by simp, hvnf⟩
            have hvnotord : v ∉ st2.order := fun hc => hvgray.2 ((w1 v).mpr hc)
            refine ⟨?_, ?_, ?_, ?_⟩
            · intro x
              simp only [List.mem_cons, List.mem_append, List.mem_singleton, w1 x]
              tauto
            · simp [List.nodup_append, w2, hvnotord]
            · intro x hx
              simp only [List.mem_cons] at hx
              rcases hx with rfl | hx
              · exact hvdisc
              · exact w3 x hx
            · apply ordClosed_append w4
              intro s hs
              have hsv : s ≠ v := fun hc => hself (hc ▸ hs)
              have hsf := hfin s hs
              simp only [List.mem_cons] at hsf
              rcases hsf with hc | hsf
              · exact absurd hc hsv
              · exact (w1 s).mp hsf
          · exact ⟨by simp, by simp [hvdisc]⟩
    | fold l =>
      cases l with
      | nil =>
        simp only [run] at h
        have hst1 : st = st1 := by
          injection h with h1
          injection h1
        subst hst1
        exact ⟨fun x hx => hx, fun x hx => hx, ⟨[], by simp⟩, fun x => Iff.rfl,
          id, by simp⟩
      | cons s rest =>
        simp only [run] at h
        by_cases hsd : s ∈ st.discovered
        · rw [if_pos hsd] at h
          obtain ⟨hd, hf, ht, hgray, hwf, hrest⟩ := ih (.fold rest) st st1 h trivial
          refine ⟨hd, hf, ht, hgray, hwf, ?_⟩
          intro x hx
          simp only [List.mem_cons] at hx
          rcases hx with rfl | hx
          · exact hd x hsd
          · exact hrest x hx
        · rw [if_neg hsd] at h
          cases hrun : run g fuel (.visit s) st with
          | none => rw [hrun] at h; simp at h
          | some r =>
            rw [hrun] at h
            cases r with
            | error e => simp at h
            | ok st2 =>
              simp only at h
              obtain ⟨hd, hf, ht, hgray, hwf, hs2⟩ := ih (.visit s) st st2 hrun hsd
              obtain ⟨hd2, hf2, ht2, hgray2, hwf2, hrest⟩ := ih (.fold rest) st2 st1 h trivial
              refine ⟨fun x hx => hd2 x (hd x hx), fun x hx => hf2 x (hf x hx), ?_, ?_,
                fun hw => hwf2 (hwf hw), ?_⟩
              · obtain ⟨t1, ht1⟩ := ht
                obtain ⟨t2, ht2e⟩ := ht2
                exact ⟨t1 ++ t2, by simp [ht2e, ht1]⟩
              · intro x
                rw [hgray2 x, hgray x]
              · intro x hx
                simp only [List.mem_cons] at hx
                rcases hx with rfl | hx
                · exact hd2 x hs2.2
                · exact hrest x hx

/-- A run that raises `Cycle e` found a real cycle through `e`: the erring
node always lies on a directed cycle of the graph.  The gray nodes are the
current search branch, so each of them reaches the node being worked on. -/
theorem run_err_main (g : DGraph) : ∀ fuel task st e,
    run g fuel task st = some (.error e) →
    (match task with
     | .visit v => v ∉ st.discovered ∧ (∀ x, gray st x → g.Reaches x v) ∧ v < g.numNodes
     | .fold l => ∀ s ∈ l, s < g.numNodes ∧ ∀ x, gray st x → g.Reaches x s) →
    RangeOK g → g.Reaches e e ∧ e < g.numNodes := by
  intro fuel
  induction fuel with
  | zero => intro task st e h; exact absurd h (by simp [run])
  | succ fuel ih =>
    intro task st e h hpre hr
    cases task with
    | visit v =>
      obtain ⟨hvd, hreach, hvn⟩ := hpre
      simp only [run] at h
      by_cases hself : v ∈ g.succs v
      · rw [if_pos hself] at h
        have he : v = e := by simpa using h
        subst he
        exact ⟨.single (mem_succs.mp hself), hvn⟩
      simp only [if_neg hself] at h
      cases hrun : run g fuel (.fold (g.succs v)) { st with discovered := v :: st.discovered } with
      | none => rw [hrun] at h; simp at h
      | some r =>
        rw [hrun] at h
        cases r with
        | error e2 =>
          have he : e2 = e := by simpa using h
          subst he
          apply ih (.fold (g.succs v)) { st with discovered := v :: st.discovered } e2 hrun ?_ hr
          intro s hs
          refine ⟨(hr _ (mem_succs.mp hs)).2, ?_⟩
          intro x hx
          have hedge : g.edge v s := mem_succs.mp hs
          obtain ⟨hxd, hxf⟩ := hx
          simp only [List.mem_cons] at hxd
          rcases hxd with rfl | hxd
          · exact .single hedge
          · exact .tail (hreach x ⟨hxd, hxf⟩) hedge
        | ok st2 =>
          simp only at h
          by_cases hfin : ∀ s ∈ g.succs v, s ∈ v :: st2.finished
          · rw [if_pos hfin] at h
            simp at h
          · rw [if_neg hfin] at h
            have he : v = e := by simpa using h
            subst he
            push_neg at hfin
            obtain ⟨s, hs, hsf⟩ := hfin
            obtain ⟨_, _, _, hgray, _, hdisc⟩ :=
              run_ok_main g fuel (.fold (g.succs v)) _ st2 hrun trivial
            simp only [List.mem_cons, not_or] at hsf
            have hsgray : gray st2 s := ⟨hdisc s hs, hsf.2⟩
            have hg1 := (hgray s).mp hsgray
            simp only [gray, List.mem_cons] at hg1
            rcases hg1.1 with rfl | hsd
            · exact absurd rfl hsf.1
            · have hreach2 : g.Reaches s v := hreach s ⟨hsd, hg1.2⟩
              exact ⟨.head (mem_succs.mp hs) hreach2, hvn⟩
    | fold l =>
      cases l with
      | nil => simp [run] at h
      | cons s rest =>
        simp only [run] at h
        by_cases hsd : s ∈ st.discovered
        · rw [if_pos hsd] at h
          exact ih (.fold rest) st e h (fun x hx => hpre x (by simp [hx])) hr
        · rw [if_neg hsd] at h
          cases hrun : run g fuel (.visit s) st with
          | none => rw [hrun] at h; simp at h
          | some r =>
            rw [hrun] at h
            cases r with
            | error e2 =>
              have he : e2 = e := by simpa using h
              subst he
              exact ih (.visit s) st e2 hrun
                ⟨hsd, (hpre s (by simp)).2, (hpre s (by simp)).1⟩ hr
            | ok st2 =>
              simp only at h
              obtain ⟨_, _, _, hgray, _, _⟩ := run_ok_main g fuel (.visit s) st st2 hrun hsd
              apply ih (.fold rest) st2 e h ?_ hr
              intro x hx
              refine ⟨(hpre x (by simp [hx])).1, ?_⟩
              intro y hy
              exact (hpre x (by simp [hx])).2 y ((hgray y).mp hy)

/-- The number of valid node indices not yet discovered. -/
def undiscL (n : Nat) (disc : List Nat) : Nat :=
  ((List.range n).filter (fun v => decide (v ∉ disc))).length

theorem undisc_filter_aux : ∀ (l : List Nat), l.Nodup → ∀ (v : Nat) (disc : List Nat),
    v ∈ l → v ∉ disc →
    (l.filter (fun x => decide (x ∉ disc))).length =
      (l.filter (fun x => decide (x ∉ v :: disc))).length + 1 := by
  intro l
  induction l with
  | nil => intro _ v disc hv; exact absurd hv (by simp)
  | cons x t iht =>
    intro hnd v disc hv hvd
    obtain ⟨hxt, htnd⟩ := List.nodup_cons.mp hnd
    by_cases hxv : x = v
    · subst hxv
      have hfx : (t.filter (fun y => decide (y ∉ disc))) =
          (t.filter (fun y => decide (y ∉ x :: disc))) := by
        apply List.filter_congr
        intro y hy
        have hyx : y ≠ x := fun hc => hxt (hc ▸ hy)
        simp [hyx]
      rw [List.filter_cons, List.filter_cons]
      rw [if_pos (show (decide (x ∉ disc)) = true by simpa using hvd)]
      rw [if_neg (show ¬ (decide (x ∉ x :: disc)) = true by simp)]
      rw [hfx]
      simp
    · have hvt : v ∈ t := by
        rcases List.mem_cons.mp hv with rfl | hvt
        · exact absurd rfl hxv
        · exact hvt
      rw [List.filter_cons, List.filter_cons]
      by_cases hxd : x ∈ disc
      · rw [if_neg (show ¬ (decide (x ∉ disc)) = true by simpa using hxd),
          if_neg (show ¬ (decide (x ∉ v :: disc)) = true by simp [hxd])]
        exact iht htnd v disc hvt hvd
      · rw [if_pos (show (decide (x ∉ disc)) = true by simpa using hxd),
          if_pos (show (decide (x ∉ v :: disc)) = true by simp [hxv, hxd])]
        simp only [List.length_cons]
        rw [iht htnd v disc hvt hvd]

theorem undiscL_cons {n v : Nat} {disc : List Nat} (hv : v < n) (hvd : v ∉ disc) :
    undiscL n disc = undiscL n (v :: disc) + 1 :=
  undisc_filter_aux (List.range n) (List.nodup_range n) v disc (List.mem_range.mpr hv) hvd

theorem undiscL_pos {n v : Nat} {disc : List Nat} (hv : v < n) (hvd : v ∉ disc) :
    1 ≤ undiscL n disc := by
  have : v ∈ (List.range n).filter (fun x => decide (x ∉ disc)) := by
    simp [List.mem_filter, List.mem_range, hv, hvd]
  have := List.length_pos.mpr (List.ne_nil_of_mem this)
  simpa [undiscL] using this

theorem undiscL_mono {n : Nat} {disc disc2 : List Nat}
    (h : ∀ x ∈ disc, x ∈ disc2) : undiscL n disc2 ≤ undiscL n disc := by
  unfold undiscL
  rw [← List.countP_eq_length_filter, ← List.countP_eq_length_filter]
  apply List.countP_mono_left
  intro x _ hx
  simp only [decide_eq_true_eq] at hx ⊢
  exact fun hc => hx (h x hc)

theorem succs_length_le (g : DGraph) (v : Nat) :
    (g.succs v).length ≤ g.edges.length := by
  simpa [DGraph.succs] using List.length_filter_le (fun e => e.1 == v) g.edges

/-- With fuel at least `undiscovered * (edges + 2)` (plus the pending list for
a fold), the DFS never runs out of fuel. -/
theorem run_total (g : DGraph) (hr : RangeOK g) : ∀ fuel task st,
    (match task with
     | .visit v => v < g.numNodes ∧ v ∉ st.discovered ∧
         undiscL g.numNodes st.discovered * (g.edges.length + 2) ≤ fuel
     | .fold l => (∀ s ∈ l, s < g.numNodes) ∧
         undiscL g.numNodes st.discovered * (g.edges.length + 2) + l.length + 1 ≤ fuel) →
    run g fuel task st ≠ none := by
  intro fuel
  induction fuel with
  | zero =>
    intro task st hpre
    cases task with
    | visit v =>
      obtain ⟨hv, hvd, harith⟩ := hpre
      have h1 := undiscL_pos hv hvd
      nlinarith
    | fold l =>
      obtain ⟨_, harith⟩ := hpre
      omega
  | succ fuel ih =>
    intro task st hpre
    cases task with
    | visit v =>
      obtain ⟨hv, hvd, harith⟩ := hpre
      simp only [run]
      by_cases hself : v ∈ g.succs v
      · simp [hself]
      simp only [if_neg hself]
      have hcount := @undiscL_cons g.numNodes v st.discovered hv hvd
      have hlen := succs_length_le g v
      have hfold : run g fuel (.fold (g.succs v)) { st with discovered := v :: st.discovered } ≠ none := by
        apply ih
        refine ⟨fun s hs => (hr _ (mem_succs.mp hs)).2, ?_⟩
        show undiscL g.numNodes (v :: st.discovered) * (g.edges.length + 2) +
          (g.succs v).length + 1 ≤ fuel
        rw [hcount, Nat.succ_mul] at harith
        omega
      cases hrun : run g fuel (.fold (g.succs v)) { st with discovered := v :: st.discovered } with
      | none => exact absurd hrun hfold
      | some r => cases r with
        | error e => simp
        | ok st2 => simp only; split <;> simp
    | fold l =>
      obtain ⟨hrange, harith⟩ := hpre
      cases l with
      | nil => simp [run]
      | cons s rest =>
        simp only [run]
        by_cases hsd : s ∈ st.discovered
        · rw [if_pos hsd]
          apply ih
          refine ⟨fun x hx => hrange x (by simp [hx]), ?_⟩
          simp only [List.length_cons] at harith
          omega
        · rw [if_neg hsd]
          have hs : s < g.numNodes := hrange s (by simp)
          have hvisit : run g fuel (.visit s) st ≠ none := by
            apply ih
            refine ⟨hs, hsd, ?_⟩
            simp only [List.length_cons] at harith
            omega
          cases hrun : run g fuel (.visit s) st with
          | none => exact absurd hrun hvisit
          | some r => cases r with
            | error e => simp
            | ok st2 =>
              simp only
              apply ih
              refine ⟨fun x hx => hrange x (by simp [hx]), ?_⟩
              obtain ⟨hd, _, _, _, _, _⟩ := run_ok_main g fuel (.visit s) st st2 hrun hsd
              have hmono : undiscL g.numNodes st2.discovered ≤ undiscL g.numNodes st.discovered :=
                undiscL_mono hd
              have := Nat.mul_le_mul_right (g.edges.length + 2) hmono
              simp only [List.length_cons] at harith
              omega

/-- Nodes discovered by a run are valid node indices (assuming the task's own
nodes are). -/
theorem run_disc_range (g : DGraph) (hr : RangeOK g) : ∀ fuel task st st1,
    run g fuel task st = some (.ok st1) →
    (match task with
     | .visit v => v < g.numNodes
     | .fold l => ∀ s ∈ l, s < g.numNodes) →
    ∀ x ∈ st1.discovered, x ∈ st.discovered ∨ x < g.numNodes := by
  intro fuel
  induction fuel with
  | zero => intro task st st1 h; exact absurd h (by simp [run])
  | succ fuel ih =>
    intro task st st1 h hpre
    cases task with
    | visit v =>
      simp only [run] at h
      by_cases hself : v ∈ g.succs v
      · simp [hself] at h
      simp only [if_neg hself] at h
      cases hrun : run g fuel (.fold (g.succs v)) { st with discovered := v :: st.discovered } with
      | none => rw [hrun] at h; simp at h
      | some r =>
        rw [hrun] at h
        cases r with
        | error e => simp at h
        | ok st2 =>
          simp only at h
          by_cases hfin : ∀ s ∈ g.succs v, s ∈ v :: st2.finished
          · rw [if_pos hfin] at h
            have hst1 : (⟨st2.discovered, v :: st2.finished, st2.order ++ [v]⟩ : TState) = st1 := by
              injection h with h1
              injection h1
            subst hst1
            intro x hx
            have := ih (.fold (g.succs v)) { st with discovered := v :: st.discovered } st2 hrun
              (fun s hs => (hr _ (mem_succs.mp hs)).2) x hx
            simp only [List.mem_cons] at this
            rcases this with (rfl | hxd) | hxn
            · exact Or.inr hpre
            · exact Or.inl hxd
            · exact Or.inr hxn
          · rw [if_neg hfin] at h
            simp at h
    | fold l =>
      cases l with
      | nil =>
        simp only [run] at h
        have hst1 : st = st1 := by
          injection h with h1
          injection h1
        subst hst1
        intro x hx
        exact Or.inl hx
      | cons s rest =>
        simp only [run] at h
        by_cases hsd : s ∈ st.discovered
        · rw [if_pos hsd] at h
          exact ih (.fold rest) st st1 h (fun x hx => hpre x (by simp [hx]))
        · rw [if_neg hsd] at h
          cases hrun : run g fuel (.visit s) st with
          | none => rw [hrun] at h; simp at h
          | some r =>
            rw [hrun] at h
            cases r with
            | error e => simp at h
            | ok st2 =>
              simp only at h
              intro x hx
              have h2 := ih (.fold rest) st2 st1 h (fun y hy => hpre y (by simp [hy])) x hx
              rcases h2 with hx2 | hxn
              · have h3 := ih (.visit s) st st2 hrun (hpre s (by simp)) x hx2
                exact h3
              · exact Or.inr hxn

/-- Invariants of the outer toposort loop on success. -/
theorem topoLoop_ok (g : DGraph) : ∀ l st st1,
    topoLoop g l st = some (.ok st1) →
    (∀ x ∈ st.discovered, x ∈ st1.discovered) ∧
    (∀ x, gray st1 x ↔ gray st x) ∧
    (WfSt g st → WfSt g st1) ∧
    (∀ v ∈ l, v ∈ st1.discovered) := by
  intro l
  induction l with
  | nil =>
    intro st st1 h
    have hst1 : st = st1 := by
      injection h with h1
      injection h1
    subst hst1
    exact ⟨fun x hx => hx, fun x => Iff.rfl, id, by simp⟩
  | cons v rest ih =>
    intro st st1 h
    simp only [topoLoop] at h
    by_cases hvd : v ∈ st.discovered
    · rw [if_pos hvd] at h
      obtain ⟨hd, hgray, hwf, hl⟩ := ih st st1 h
      refine ⟨hd, hgray, hwf, ?_⟩
      intro x hx
      rcases List.mem_cons.mp hx with rfl | hx
      · exact hd x hvd
      · exact hl x hx
    · rw [if_neg hvd] at h
      cases hrun : run g (topoFuel g) (.visit v) st with
      | none => rw [hrun] at h; simp at h
      | some r =>
        rw [hrun] at h
        cases r with
        | error e => simp at h
        | ok st2 =>
          simp only at h
          obtain ⟨hd, _, _, hgray, hwf, hvfin⟩ :=
            run_ok_main g (topoFuel g) (.visit v) st st2 hrun hvd
          obtain ⟨hd2, hgray2, hwf2, hl2⟩ := ih st2 st1 h
          refine ⟨fun x hx => hd2 x (hd x hx), ?_, fun hw => hwf2 (hwf hw), ?_⟩
          · intro x
            rw [hgray2 x, hgray x]
          · intro x hx
            rcases List.mem_cons.mp hx with rfl | hx
            · exact hd2 x hvfin.2
            · exact hl2 x hx

/-- If the outer loop raises `Cycle e`, then `e` lies on a directed cycle. -/
theorem topoLoop_err (g : DGraph) (hr : RangeOK g) : ∀ l st e,
    topoLoop g l st = some (.error e) →
    (∀ x, ¬ gray st x) → (∀ v ∈ l, v < g.numNodes) →
    g.Reaches e e ∧ e < g.numNodes := by
  intro l
  induction l with
  | nil => intro st e h; simp [topoLoop] at h
  | cons v rest ih =>
    intro st e h hgray hrange
    simp only [topoLoop] at h
    by_cases hvd : v ∈ st.discovered
    · rw [if_pos hvd] at h
      exact ih st e h hgray (fun x hx => hrange x (by simp [hx]))
    · rw [if_neg hvd] at h
      cases hrun : run g (topoFuel g) (.visit v) st with
      | none => rw [hrun] at h; simp at h
      | some r =>
        rw [hrun] at h
        cases r with
        | error e2 =>
          have he : e2 = e := by simpa using h
          subst he
          exact run_err_main g (topoFuel g) (.visit v) st e2 hrun
            ⟨hvd, fun x hx => absurd hx (hgray x), hrange v (by simp)⟩ hr
        | ok st2 =>
          simp only at h
          obtain ⟨_, _, _, hgray2, _, _⟩ :=
            run_ok_main g (topoFuel g) (.visit v) st st2 hrun hvd
          apply ih st2 e h ?_ (fun x hx => hrange x (by simp [hx]))
          intro x hx
          exact hgray x ((hgray2 x).mp hx)

/-- The outer loop never runs out of fuel: `topoFuel` dominates the
requirement of every visit. -/
theorem topoLoop_total (g : DGraph) (hr : RangeOK g) : ∀ l st,
    (∀ v ∈ l, v < g.numNodes) → topoLoop g l st ≠ none := by
  intro l
  induction l with
  | nil => intro st _; simp [topoLoop]
  | cons v rest ih =>
    intro st hrange
    simp only [topoLoop]
    by_cases hvd : v ∈ st.discovered
    · rw [if_pos hvd]
      exact ih st (fun x hx => hrange x (by simp [hx]))
    · rw [if_neg hvd]
      have hv : v < g.numNodes := hrange v (by simp)
      have hrun_ne : run g (topoFuel g) (.visit v) st ≠ none := by
        apply run_total g hr
        refine ⟨hv, hvd, ?_⟩
        have hu : undiscL g.numNodes st.discovered ≤ g.numNodes := by
          have := List.length_filter_le (fun x => decide (x ∉ st.discovered)) (List.range g.numNodes)
          simpa [undiscL] using this
        calc undiscL g.numNodes st.discovered * (g.edges.length + 2)
            ≤ g.numNodes * (g.edges.length + 2) :=
              Nat.mul_le_mul_right _ hu
          _ ≤ (g.numNodes + 1) * (g.edges.length + 2) :=
              Nat.mul_le_mul_right _ (by omega)
          _ = topoFuel g := rfl
      cases hrun : run g (topoFuel g) (.visit v) st with
      | none => exact absurd hrun hrun_ne
      | some r =>
        cases r with
        | error e => simp
        | ok st2 =>
          simp only
          exact ih st2 (fun x hx => hrange x (by simp [hx]))

/-- Discovered nodes of the outer loop are valid node indices. -/
theorem topoLoop_disc_range (g : DGraph) (hr : RangeOK g) : ∀ l st st1,
    topoLoop g l st = some (.ok st1) → (∀ v ∈ l, v < g.numNodes) →
    ∀ x ∈ st1.discovered, x ∈ st.discovered ∨ x < g.numNodes := by
  intro l
  induction l with
  | nil =>
    intro st st1 h _
    have hst1 : st = st1 := by
      injection h with h1
      injection h1
    subst hst1
    exact fun x hx => Or.inl hx
  | cons v rest ih =>
    intro st st1 h hrange
    simp only [topoLoop] at h
    by_cases hvd : v ∈ st.discovered
    · rw [if_pos hvd] at h
      exact ih st st1 h (fun x hx => hrange x (by simp [hx]))
    · rw [if_neg hvd] at h
      cases hrun : run g (topoFuel g) (.visit v) st with
      | none => rw [hrun] at h; simp at h
      | some r =>
        rw [hrun] at h
        cases r with
        | error e => simp at h
        | ok st2 =>
          simp only at h
          intro x hx
          rcases ih st2 st1 h (fun y hy => hrange y (by simp [hy])) x hx with hx2 | hxn
          · exact run_disc_range g hr (topoFuel g) (.visit v) st st2 hrun (hrange v (by simp)) x hx2
          · exact Or.inr hxn

/-- If `toposort` fails, the reported node lies on a directed cycle (and is a
valid node index). -/
theorem toposort_err_reaches {g : DGraph} {e : Nat} (hr : RangeOK g)
    (h : toposort g = .error e) : g.Reaches e e ∧ e < g.numNodes := by
  unfold toposort at h
  cases hloop : topoLoop g (List.range g.numNodes) ⟨[], [], []⟩ with
  | none =>
    exact absurd hloop (topoLoop_total g hr _ _ (fun v hv => List.mem_range.mp hv))
  | some r =>
    rw [hloop] at h
    cases r with
    | ok st1 => simp at h
    | error e2 =>
      have he : e2 = e := by simpa using h
      subst he
      exact topoLoop_err g hr _ _ e2 hloop (by simp [gray]) (fun v hv => List.mem_range.mp hv)

/-- On success, `toposort` returns the reversed finish stack of a final state
that is well-formed, lists exactly the valid node indices, and is closed
under successors. -/
theorem toposort_ok_props {g : DGraph} {ord : List Nat} (hr : RangeOK g)
    (h : toposort g = .ok ord) :
    ∃ st1, ord = st1.order.reverse ∧ WfSt g st1 ∧
      (∀ v, v < g.numNodes → v ∈ st1.order) ∧ (∀ v ∈ st1.order, v < g.numNodes) := by
  unfold toposort at h
  cases hloop : topoLoop g (List.range g.numNodes) ⟨[], [], []⟩ with
  | none =>
    exact absurd hloop (topoLoop_total g hr _ _ (fun v hv => List.mem_range.mp hv))
  | some r =>
    rw [hloop] at h
    cases r with
    | error e2 => simp at h
    | ok st1 =>
      have hord : st1.order.reverse = ord := by simpa using h
      obtain ⟨_, hgray, hwf, hdisc⟩ := topoLoop_ok g _ _ _ hloop
      have hwf1 : WfSt g st1 := hwf ⟨by simp, by simp, by simp, ordClosed_nil⟩
      obtain ⟨w1, w2, w3, w4⟩ := hwf1
      refine ⟨st1, hord.symm, ⟨w1, w2, w3, w4⟩, ?_, ?_⟩
      · intro v hv
        have hvd : v ∈ st1.discovered := hdisc v (List.mem_range.mpr hv)
        have hvfin : v ∈ st1.finished := by
          by_contra hc
          exact (by simp [gray] : ¬ gray (⟨[], [], []⟩ : TState) v)
            ((hgray v).mp ⟨hvd, hc⟩)
        exact (w1 v).mp hvfin
      · intro v hv
        have hvfin : v ∈ st1.finished := (w1 v).mpr hv
        have hvd : v ∈ st1.discovered := w3 v hvfin
        rcases topoLoop_disc_range g hr _ _ _ hloop (fun x hx => List.mem_range.mp hx) v hvd with
          hc | hvn
        · simp at hc
        · exact hvn

/-! ## Rank in a list, topological-order consequences -/

/-- Position of the first occurrence of `x` in `l`. -/
def rank (l : List Nat) (x : Nat) : Nat :=
  match l with
  | [] => 0
  | y :: t => if y = x then 0 else rank t x + 1

theorem rank_lt_length {l : List Nat} {x : Nat} (h : x ∈ l) : rank l x < l.length := by
  induction l with
  | nil => simp at h
  | cons y t ih =>
    by_cases hyx : y = x
    · simp [rank, hyx]
    · have hx : x ∈ t := by
        rcases List.mem_cons.mp h with rfl | hx
        · exact absurd rfl hyx
        · exact hx
      simp only [rank, if_neg hyx, List.length_cons]
      exact Nat.succ_lt_succ (ih hx)

theorem getElem?_rank {l : List Nat} {x : Nat} (h : x ∈ l) : l[rank l x]? = some x := by
  induction l with
  | nil => simp at h
  | cons y t ih =>
    by_cases hyx : y = x
    · simp [rank, hyx]
    · have hx : x ∈ t := by
        rcases List.mem_cons.mp h with rfl | hx
        · exact absurd rfl hyx
        · exact hx
      simp only [rank, if_neg hyx]
      simpa using ih hx

theorem rank_lt_of_split {l1 l2 : List Nat} {a b : Nat}
    (ha : a ∉ l1) (hb : b ∈ l1) :
    rank (l1 ++ a :: l2) b < rank (l1 ++ a :: l2) a := by
  induction l1 with
  | nil => simp at hb
  | cons c t ih =>
    have hac : a ≠ c := fun h2 => ha (by simp [h2])
    have hat : a ∉ t := fun h2 => ha (by simp [h2])
    have hca : ¬ c = a := fun h2 => hac h2.symm
    by_cases hcb : c = b
    · subst hcb
      show rank (c :: (t ++ a :: l2)) c < rank (c :: (t ++ a :: l2)) a
      simp [rank, hca]
    · have hbt : b ∈ t := by
        rcases List.mem_cons.mp hb with rfl | hbt
        · exact absurd rfl hcb
        · exact hbt
      show rank (c :: (t ++ a :: l2)) b < rank (c :: (t ++ a :: l2)) a
      simp only [rank, if_neg hcb, if_neg hca]
      have := ih hat hbt
      omega

/-- In a nodup successor-closed list, following an edge strictly decreases the
rank. -/
theorem edge_rank_lt {g : DGraph} {l : List Nat} (hc : OrdClosed g l)
    (hnd : l.Nodup) {a b : Nat} (hedge : g.edge a b) (ha : a ∈ l) :
    rank l b < rank l a := by
  obtain ⟨l1, l2, rfl⟩ := List.append_of_mem ha
  have hb : b ∈ l1 := hc l1 a l2 rfl b (mem_succs.mpr hedge)
  have hal1 : a ∉ l1 := by
    rw [List.nodup_append] at hnd
    exact fun hc2 => hnd.2.2 hc2 (by simp)
  exact rank_lt_of_split hal1 hb

/-- Reachability strictly decreases the rank in a successor-closed list. -/
theorem reaches_rank_lt {g : DGraph} {l : List Nat} (hc : OrdClosed g l)
    (hnd : l.Nodup) (hmem : ∀ x y, g.edge x y → x ∈ l) :
    ∀ {a b : Nat}, g.Reaches a b → rank l b < rank l a := by
  intro a b h
  induction h with
  | single hedge => exact edge_rank_lt hc hnd hedge (hmem _ _ hedge)
  | tail _ hedge ih =>
    exact Nat.lt_trans (edge_rank_lt hc hnd hedge (hmem _ _ hedge)) ih

/-- A graph `toposort` succeeds on is acyclic. -/
theorem toposort_ok_acyclic {g : DGraph} {ord : List Nat} (hr : RangeOK g)
    (h : toposort g = .ok ord) : ¬ g.Cyclic := by
  rintro ⟨v, hv⟩
  obtain ⟨st1, _, ⟨_, w2, _, w4⟩, hall, _⟩ := toposort_ok_props hr h
  have hmem : ∀ x y, g.edge x y → x ∈ st1.order := fun x y hxy =>
    hall x (hr (x, y) hxy).1
  exact Nat.lt_irrefl _ (reaches_rank_lt w4 w2 hmem hv)

/-- On an acyclic graph (with valid edges) `toposort` succeeds. -/
theorem toposort_acyclic_ok {g : DGraph} (hr : RangeOK g) (hac : ¬ g.Cyclic) :
    ∃ ord, toposort g = .ok ord := by
  cases h : toposort g with
  | ok ord => exact ⟨ord, rfl⟩
  | error e =>
    exact absurd ⟨e, (toposort_err_reaches hr h).1⟩ hac

/-! ## Lookup maps of `sequence` -/

/-- Lookup in the index-to-name map. -/
def lookupV (vals : List (Nat × String)) (k : Nat) : Option String :=
  (vals.find? (fun p => p.1 == k)).map Prod.snd

theorem lookupV_cons_self {k : Nat} {v : String} {rest : List (Nat × String)} :
    lookupV ((k, v) :: rest) k = some v := by
  unfold lookupV
  rw [List.find?_cons_of_pos _ (by simp)]
  rfl

theorem lookupV_cons_ne {k1 : Nat} {w : String} {rest : List (Nat × String)}
    {j : Nat} (h : ¬ k1 = j) :
    lookupV ((k1, w) :: rest) j = lookupV rest j := by
  unfold lookupV
  rw [List.find?_cons_of_neg _ (by simpa using h)]

theorem mem_enumFrom_iff {α : Type} : ∀ (l : List α) (off i : Nat) (x : α),
    (i, x) ∈ List.enumFrom off l ↔ off ≤ i ∧ l[i - off]? = some x := by
  intro l
  induction l with
  | nil => intro off i x; simp
  | cons a t ih =>
    intro off i x
    rw [List.enumFrom_cons, List.mem_cons, ih (off + 1) i x]
    constructor
    · rintro (h | ⟨hle, hget⟩)
      · obtain ⟨rfl, rfl⟩ := Prod.mk.inj h
        simp
      · refine ⟨by omega, ?_⟩
        obtain ⟨k, hk⟩ : ∃ k, i - off = k + 1 := ⟨i - off - 1, by omega⟩
        rw [hk, List.getElem?_cons_succ]
        have hik : i - (off + 1) = k := by omega
        rw [← hik]
        exact hget
    · rintro ⟨hle, hget⟩
      by_cases hio : i = off
      · subst hio
        left
        have hax : a = x := by simpa using hget
        rw [hax]
      · right
        refine ⟨by omega, ?_⟩
        obtain ⟨k, hk⟩ : ∃ k, i - off = k + 1 := ⟨i - off - 1, by omega⟩
        rw [hk, List.getElem?_cons_succ] at hget
        have hik : i - (off + 1) = k := by omega
        rw [hik]
        exact hget

theorem mem_enum_iff {α : Type} {l : List α} {i : Nat} {x : α} :
    (i, x) ∈ l.enum ↔ l[i]? = some x := by
  have := mem_enumFrom_iff l 0 i x
  simpa [List.enum] using this

theorem idxOf_some {names : List String} {x : String} {i : Nat}
    (h : idxOf names x = some i) : names[i]? = some x := by
  unfold idxOf at h
  obtain ⟨⟨i2, y⟩, hlast, hfst⟩ := Option.map_eq_some'.mp h
  obtain rfl : i2 = i := hfst
  have hmem := List.mem_of_mem_getLast? hlast
  obtain ⟨hin, hy⟩ := List.mem_filter.mp hmem
  have : y = x := by simpa using hy
  subst this
  exact mem_enum_iff.mp hin

theorem idxOf_lt {names : List String} {x : String} {i : Nat}
    (h : idxOf names x = some i) : i < names.length :=
  (List.getElem?_eq_some.mp (idxOf_some h)).1

theorem idxOf_none_iff {names : List String} {x : String} :
    idxOf names x = none ↔ x ∉ names := by
  unfold idxOf
  rw [Option.map_eq_none', List.getLast?_eq_none_iff, List.filter_eq_nil_iff]
  constructor
  · intro h hx
    obtain ⟨i, hi⟩ := List.mem_iff_getElem?.mp hx
    exact h (i, x) (mem_enum_iff.mpr hi) (by simp)
  · intro hx p hp hpx
    obtain ⟨i, y⟩ := p
    have hy : y = x := by simpa using hpx
    subst hy
    exact hx (List.mem_iff_getElem?.mpr ⟨i, mem_enum_iff.mp hp⟩)

theorem idxOf_mem {names : List String} {x : String} (h : x ∈ names) :
    ∃ i, idxOf names x = some i := by
  cases hi : idxOf names x with
  | none => exact absurd (idxOf_none_iff.mp hi) (by simp [h])
  | some i => exact ⟨i, rfl⟩

theorem lookupV_enumFrom : ∀ (names : List String) (off j : Nat),
    lookupV (List.enumFrom off names) j =
      if j < off then none else names[j - off]? := by
  intro names
  induction names with
  | nil =>
    intro off j
    simp only [List.enumFrom, lookupV, List.find?_nil, Option.map_none']
    split <;> simp
  | cons a t ih =>
    intro off j
    rw [List.enumFrom_cons]
    by_cases hoj : off = j
    · subst hoj
      rw [lookupV_cons_self, if_neg (by omega), Nat.sub_self, List.getElem?_cons_zero]
    · rw [lookupV_cons_ne hoj, ih (off + 1) j]
      by_cases hlt : j < off
      · rw [if_pos (by omega), if_pos hlt]
      · rw [if_neg (by omega), if_neg hlt]
        obtain ⟨k, hk⟩ : ∃ k, j - off = k + 1 := ⟨j - off - 1, by omega⟩
        rw [hk, List.getElem?_cons_succ]
        congr 1
        omega

theorem lookupV_enum (names : List String) (j : Nat) :
    lookupV names.enum j = names[j]? := by
  have := lookupV_enumFrom names 0 j
  simpa [List.enum] using this

theorem removeFirst_none_iff {vals : List (Nat × String)} {k : Nat} :
    removeFirst vals k = none ↔ ∀ p ∈ vals, p.1 ≠ k := by
  induction vals with
  | nil => simp [removeFirst]
  | cons p rest ih =>
    obtain ⟨k1, v⟩ := p
    simp only [removeFirst]
    by_cases hk : k1 = k
    · simp [hk]
    · rw [if_neg hk]
      simp only [Option.map_eq_none', ih]
      constructor
      · intro h q hq
        rcases List.mem_cons.mp hq with rfl | hq
        · exact hk
        · exact h q hq
      · intro h q hq
        exact h q (by simp [hq])

theorem removeFirst_some_lookup {vals : List (Nat × String)} {k : Nat}
    {v : String} {vals2 : List (Nat × String)}
    (h : removeFirst vals k = some (v, vals2)) : lookupV vals k = some v := by
  induction vals generalizing vals2 with
  | nil => simp [removeFirst] at h
  | cons p rest ih =>
    obtain ⟨k1, w⟩ := p
    simp only [removeFirst] at h
    by_cases hk : k1 = k
    · rw [if_pos hk] at h
      obtain ⟨rfl, rfl⟩ := Prod.mk.inj (Option.some.inj h)
      subst hk
      exact lookupV_cons_self
    · rw [if_neg hk] at h
      obtain ⟨⟨v2, r2⟩, hr, heq⟩ := Option.map_eq_some'.mp h
      obtain ⟨rfl, rfl⟩ := Prod.mk.inj heq
      rw [lookupV_cons_ne hk]
      exact ih hr

theorem removeFirst_some_other {vals : List (Nat × String)} {k : Nat}
    {v : String} {vals2 : List (Nat × String)}
    (h : removeFirst vals k = some (v, vals2)) :
    ∀ j, j ≠ k → lookupV vals2 j = lookupV vals j := by
  induction vals generalizing vals2 with
  | nil => simp [removeFirst] at h
  | cons p rest ih =>
    obtain ⟨k1, w⟩ := p
    simp only [removeFirst] at h
    by_cases hk : k1 = k
    · rw [if_pos hk] at h
      obtain ⟨rfl, rfl⟩ := Prod.mk.inj (Option.some.inj h)
      intro j hj
      have hk1j : ¬ k1 = j := by
        rw [hk]
        exact fun hc => hj hc.symm
      rw [lookupV_cons_ne hk1j]
    · rw [if_neg hk] at h
      obtain ⟨⟨v2, r2⟩, hr, heq⟩ := Option.map_eq_some'.mp h
      obtain ⟨rfl, rfl⟩ := Prod.mk.inj heq
      intro j hj
      by_cases hk1j : k1 = j
      · subst hk1j
        rw [lookupV_cons_self, lookupV_cons_self]
      · rw [lookupV_cons_ne hk1j, lookupV_cons_ne hk1j]
        exact ih hr j hj

/-- For duplicate-free keys, removing entries one by one is plain lookup. -/
theorem removeFold_eq_filterMap : ∀ (keys : List Nat) (vals : List (Nat × String)),
    keys.Nodup → removeFold keys vals = keys.filterMap (fun k => lookupV vals k) := by
  intro keys
  induction keys with
  | nil => intro vals _; simp [removeFold]
  | cons k ks ih =>
    intro vals hnd
    obtain ⟨hk, hksnd⟩ := List.nodup_cons.mp hnd
    simp only [removeFold, List.filterMap_cons]
    cases hrf : removeFirst vals k with
    | none =>
      have hlook : lookupV vals k = none := by
        simp only [lookupV, Option.map_eq_none', List.find?_eq_none]
        intro p hp
        simpa using (removeFirst_none_iff.mp hrf) p hp
      rw [hlook]
      exact ih vals hksnd
    | some r =>
      obtain ⟨v, vals2⟩ := r
      rw [removeFirst_some_lookup hrf]
      simp only
      rw [ih vals2 hksnd]
      congr 1
      apply List.filterMap_congr
      intro j hj
      exact removeFirst_some_other hrf j (fun hc => hk (hc ▸ hj))

/-! ## The graph `sequence` builds -/

theorem mem_buildEdges {inputs : List (String × List String)} {i j : Nat} :
    (i, j) ∈ buildEdges inputs ↔
      ∃ p ∈ inputs, idxOf (inputs.map Prod.fst) p.1 = some i ∧
        ∃ d ∈ p.2, idxOf (inputs.map Prod.fst) d = some j := by
  unfold buildEdges
  rw [List.mem_flatMap]
  constructor
  · rintro ⟨p, hp, hmem⟩
    unfold buildRow at hmem
    cases hidx : idxOf (inputs.map Prod.fst) p.1 with
    | none => rw [hidx] at hmem; simp at hmem
    | some i2 =>
      rw [hidx] at hmem
      obtain ⟨d, hd, hmap⟩ := List.mem_filterMap.mp hmem
      obtain ⟨j2, hj2, heq⟩ := Option.map_eq_some'.mp hmap
      obtain ⟨rfl, rfl⟩ := Prod.mk.inj heq
      exact ⟨p, hp, hidx, d, hd, hj2⟩
  · rintro ⟨p, hp, hidx, d, hd, hj⟩
    refine ⟨p, hp, ?_⟩
    unfold buildRow
    rw [hidx]
    exact List.mem_filterMap.mpr ⟨d, hd, by rw [hj]; rfl⟩

theorem seqGraph_rangeOK (inputs : List (String × List String)) :
    RangeOK (seqGraph inputs) := by
  rintro ⟨i, j⟩ hmem
  obtain ⟨p, _, hidx, d, _, hj⟩ := mem_buildEdges.mp hmem
  have h1 := idxOf_lt hidx
  have h2 := idxOf_lt hj
  simp only [List.length_map] at h1 h2
  exact ⟨h1, h2⟩

/-- The module identifiers of a set, in iteration order. -/
def modNames (ms : List ParsedModule) : List String :=
  ms.map ParsedModule.name

/-- The dependency graph of a module set. -/
def modGraph (ms : List ParsedModule) : DGraph :=
  seqGraph (ms.map ParsedModule.deps_for_graph)

theorem inputs_fst (ms : List ParsedModule) :
    (ms.map ParsedModule.deps_for_graph).map Prod.fst = modNames ms := by
  simp [modNames, ParsedModule.deps_for_graph, Function.comp]

theorem modGraph_numNodes (ms : List ParsedModule) :
    (modGraph ms).numNodes = ms.length := by
  simp [modGraph, seqGraph]

theorem sequence_eq_ok {ms : List ParsedModule} {ord : List Nat}
    (h : toposort (modGraph ms) = .ok ord) :
    sequence ms = .ok ((removeFold ord ((modNames ms).enum)).reverse) := by
  show (match toposort (modGraph ms) with
    | Except.ok order =>
      Except.ok (removeFold order (((ms.map ParsedModule.deps_for_graph).map Prod.fst).enum)).reverse
    | Except.error origin =>
      match find_cycle (modGraph ms) origin with
      | some r =>
        Except.error (removeFold r.2.1 (((ms.map ParsedModule.deps_for_graph).map Prod.fst).enum))
      | none => Except.error []) = _
  rw [h, inputs_fst]

theorem sequence_eq_err_fc {ms : List ParsedModule} {e : Nat}
    {r : Bool × List Nat × List Nat}
    (h : toposort (modGraph ms) = .error e)
    (hfc : find_cycle (modGraph ms) e = some r) :
    sequence ms = .error (removeFold r.2.1 ((modNames ms).enum)) := by
  show (match toposort (modGraph ms) with
    | Except.ok order =>
      Except.ok (removeFold order (((ms.map ParsedModule.deps_for_graph).map Prod.fst).enum)).reverse
    | Except.error origin =>
      match find_cycle (modGraph ms) origin with
      | some r =>
        Except.error (removeFold r.2.1 (((ms.map ParsedModule.deps_for_graph).map Prod.fst).enum))
      | none => Except.error []) = _
  rw [h]
  show (match find_cycle (modGraph ms) e with
    | some r =>
      Except.error (removeFold r.2.1 (((ms.map ParsedModule.deps_for_graph).map Prod.fst).enum))
    | none => Except.error []) = _
  rw [hfc, inputs_fst]

theorem sequence_eq_err_none {ms : List ParsedModule} {e : Nat}
    (h : toposort (modGraph ms) = .error e)
    (hfc : find_cycle (modGraph ms) e = none) :
    sequence ms = .error [] := by
  show (match toposort (modGraph ms) with
    | Except.ok order =>
      Except.ok (removeFold order (((ms.map ParsedModule.deps_for_graph).map Prod.fst).enum)).reverse
    | Except.error origin =>
      match find_cycle (modGraph ms) origin with
      | some r =>
        Except.error (removeFold r.2.1 (((ms.map ParsedModule.deps_for_graph).map Prod.fst).enum))
      | none => Except.error []) = _
  rw [h]
  show (match find_cycle (modGraph ms) e with
    | some r =>
      Except.error (removeFold r.2.1 (((ms.map ParsedModule.deps_for_graph).map Prod.fst).enum))
    | none => Except.error []) = _
  rw [hfc]

theorem sequence_isErr_of_toposort_err {ms : List ParsedModule} {e : Nat}
    (h : toposort (modGraph ms) = .error e) :
    ∃ r, sequence ms = .error r := by
  cases hfc : find_cycle (modGraph ms) e with
  | none => exact ⟨[], sequence_eq_err_none h hfc⟩
  | some r2 => exact ⟨_, sequence_eq_err_fc h hfc⟩

theorem sequence_ok_of_toposort_ok {ms : List ParsedModule} {r : List String}
    (h : sequence ms = .error r) : ∃ e, toposort (modGraph ms) = .error e := by
  cases htopo : toposort (modGraph ms) with
  | ok ord => rw [sequence_eq_ok htopo] at h; simp at h
  | error e => exact ⟨e, rfl⟩

/-! ## Bridging name-level and index-level edges -/

theorem edge_name_of_idx {ms : List ParsedModule} {i j : Nat}
    (h : (modGraph ms).edge i j) :
    ∃ a b, (modNames ms)[i]? = some a ∧ (modNames ms)[j]? = some b ∧
      importEdge ms a b := by
  obtain ⟨p, hp, hidx, d, hd, hj⟩ := mem_buildEdges.mp h
  rw [inputs_fst] at hidx hj
  obtain ⟨m, hm, rfl⟩ := List.mem_map.mp hp
  refine ⟨m.name, d, idxOf_some hidx, idxOf_some hj, m, hm, rfl, hd, ?_⟩
  exact List.mem_iff_getElem?.mpr ⟨j, idxOf_some hj⟩

theorem edge_idx_of_name {ms : List ParsedModule} {a b : String}
    (h : importEdge ms a b) :
    ∃ ia ib, idxOf (modNames ms) a = some ia ∧ idxOf (modNames ms) b = some ib ∧
      (modGraph ms).edge ia ib := by
  obtain ⟨m, hm, rfl, hd, hbn⟩ := h
  have han : m.name ∈ modNames ms := List.mem_map.mpr ⟨m, hm, rfl⟩
  obtain ⟨ia, hia⟩ := idxOf_mem han
  obtain ⟨ib, hib⟩ := idxOf_mem hbn
  refine ⟨ia, ib, hia, hib, ?_⟩
  apply mem_buildEdges.mpr
  refine ⟨m.deps_for_graph, List.mem_map.mpr ⟨m, hm, rfl⟩, ?_, b, hd, ?_⟩
  · rw [inputs_fst]
    exact hia
  · rw [inputs_fst]
    exact hib

theorem reaches_idx_of_name {ms : List ParsedModule} {a b : String} :
    Relation.TransGen (importEdge ms) a b →
    ∀ {ia ib : Nat}, idxOf (modNames ms) a = some ia →
      idxOf (modNames ms) b = some ib → (modGraph ms).Reaches ia ib := by
  intro h
  induction h with
  | single hedge =>
    intro ia ib hia hib
    obtain ⟨ia2, ib2, hia2, hib2, hedge2⟩ := edge_idx_of_name hedge
    rw [hia] at hia2
    rw [hib] at hib2
    obtain rfl := Option.some.inj hia2
    obtain rfl := Option.some.inj hib2
    exact .single hedge2
  | tail hab hedge ih =>
    intro ia ib hia hib
    obtain ⟨iy, ib2, hiy, hib2, hedge2⟩ := edge_idx_of_name hedge
    rw [hib] at hib2
    obtain rfl := Option.some.inj hib2
    exact .tail (ih hia hiy) hedge2

theorem reaches_name_of_idx {ms : List ParsedModule} {i j : Nat} :
    (modGraph ms).Reaches i j →
    ∀ {a b : String}, (modNames ms)[i]? = some a → (modNames ms)[j]? = some b →
      Relation.TransGen (importEdge ms) a b := by
  intro h
  induction h with
  | single hedge =>
    intro a b ha hb
    obtain ⟨a2, b2, ha2, hb2, hedge2⟩ := edge_name_of_idx hedge
    rw [ha] at ha2
    rw [hb] at hb2
    obtain rfl := Option.some.inj ha2
    obtain rfl := Option.some.inj hb2
    exact .single hedge2
  | tail hab hedge ih =>
    intro a b ha hb
    obtain ⟨y2, b2, hy2, hb2, hedge2⟩ := edge_name_of_idx hedge
    rw [hb] at hb2
    obtain rfl := Option.some.inj hb2
    exact .tail (ih ha hy2) hedge2

theorem importEdge_src_mem {ms : List ParsedModule} {a b : String}
    (h : importEdge ms a b) : a ∈ modNames ms := by
  obtain ⟨m, hm, rfl, _, _⟩ := h
  exact List.mem_map.mpr ⟨m, hm, rfl⟩

theorem edge_src_name {ms : List ParsedModule} {i j : Nat}
    (h : (modGraph ms).edge i j) : ∃ a, (modNames ms)[i]? = some a := by
  obtain ⟨a, _, ha, _, _⟩ := edge_name_of_idx h
  exact ⟨a, ha⟩

theorem reaches_src_name {ms : List ParsedModule} {i j : Nat}
    (h : (modGraph ms).Reaches i j) : ∃ a, (modNames ms)[i]? = some a := by
  induction h with
  | single hedge => exact edge_src_name hedge
  | tail _ _ ih => exact ih

theorem transGen_importEdge_src {ms : List ParsedModule} {a b : String}
    (h : Relation.TransGen (importEdge ms) a b) : a ∈ modNames ms := by
  induction h with
  | single hedge => exact importEdge_src_mem hedge
  | tail _ _ ih => exact ih

/-- The graph `sequence` builds has a cycle exactly when the name-level
dependency relation (restricted to identifiers of the set) has one. -/
theorem nameCyclic_iff_cyclic (ms : List ParsedModule) :
    NameCyclic ms ↔ (modGraph ms).Cyclic := by
  constructor
  · rintro ⟨a, ha⟩
    obtain ⟨ia, hia⟩ := idxOf_mem (transGen_importEdge_src ha)
    exact ⟨ia, reaches_idx_of_name ha hia hia⟩
  · rintro ⟨v, hv⟩
    obtain ⟨a, ha⟩ := reaches_src_name hv
    exact ⟨a, reaches_name_of_idx hv ha ha⟩

theorem filterMap_getElem_eq_map {names : List String} : ∀ (keys : List Nat),
    (∀ k ∈ keys, k < names.length) →
    keys.filterMap (fun k => names[k]?) = keys.map (fun k => names.getD k "") := by
  intro keys
  induction keys with
  | nil => intro _; simp
  | cons k ks ih =>
    intro hk
    have hklt : k < names.length := hk k (by simp)
    rw [List.filterMap_cons, List.map_cons]
    rw [List.getElem?_eq_getElem hklt]
    simp only
    rw [ih (fun x hx => hk x (by simp [hx]))]
    congr 1
    rw [List.getD_eq_getElem?_getD, List.getElem?_eq_getElem hklt]
    rfl

theorem map_getD_range (names : List String) :
    (List.range names.length).map (fun k => names.getD k "") = names := by
  apply List.ext_getElem?
  intro i
  by_cases hi : i < names.length
  · rw [List.getElem?_map, List.getElem?_range hi, List.getElem?_eq_getElem hi]
    simp [List.getD_eq_getElem?_getD, List.getElem?_eq_getElem hi]
  · rw [List.getElem?_map, List.getElem?_eq_none (by simpa using hi),
      List.getElem?_eq_none (by omega)]
    rfl

/-- The `.ok` result of `sequence`, described as a map over the final finish
order of the DFS. -/
theorem sequence_ok_map {ms : List ParsedModule} {ord : List Nat}
    (htopo : toposort (modGraph ms) = .ok ord) :
    ∀ {st1 : TState}, ord = st1.order.reverse → st1.order.Nodup →
      (∀ v ∈ st1.order, v < (modNames ms).length) →
      sequence ms = .ok (st1.order.map (fun k => (modNames ms).getD k "")) := by
  intro st1 hordeq hnd1 hlt
  rw [sequence_eq_ok htopo]
  congr 1
  rw [removeFold_eq_filterMap ord _ (by rw [hordeq]; exact List.nodup_reverse.mpr hnd1)]
  have h1 : ord.filterMap (fun k => lookupV ((modNames ms).enum) k) =
      ord.filterMap (fun k => (modNames ms)[k]?) :=
    List.filterMap_congr (fun k _ => lookupV_enum (modNames ms) k)
  rw [h1]
  rw [filterMap_getElem_eq_map ord
    (fun k hk => hlt k (by rw [hordeq, List.mem_reverse] at hk; exact hk))]
  rw [hordeq, ← List.map_reverse, List.reverse_reverse]

/-! ## Claims C1 and C2 -/

/-- Claim C1: for every module set whose dependency graph (restricted to
identifiers present in the set) is acyclic, `sequence` returns `.ok` with a
list that contains every module identifier of the set exactly once (it is a
permutation of the identifier list, which is duplicate-free), and in which,
for every import "A imports B" with B present in the set, B's position
precedes A's position. -/
theorem sequence_acyclic_topological (ms : List ParsedModule)
    (hnd : (modNames ms).Nodup) (hac : ¬ NameCyclic ms) :
    ∃ l, sequence ms = .ok l ∧ l.Perm (modNames ms) ∧
      ∀ m ∈ ms, ∀ b ∈ m.deps, b ∈ modNames ms →
        ∃ i j : Nat, i < j ∧ l[i]? = some b ∧ l[j]? = some m.name := by
  have hr : RangeOK (modGraph ms) := seqGraph_rangeOK _
  have hcyc : ¬ (modGraph ms).Cyclic := fun hc => hac ((nameCyclic_iff_cyclic ms).mpr hc)
  obtain ⟨ord, htopo⟩ := toposort_acyclic_ok hr hcyc
  obtain ⟨st1, hordeq, ⟨w1, w2, w3, w4⟩, hall, hlt⟩ := toposort_ok_props hr htopo
  have hn : (modGraph ms).numNodes = (modNames ms).length := by
    rw [modGraph_numNodes]
    simp [modNames]
  have hlt2 : ∀ v ∈ st1.order, v < (modNames ms).length := fun v hv => hn ▸ hlt v hv
  have hall2 : ∀ v, v < (modNames ms).length → v ∈ st1.order := fun v hv =>
    hall v (by omega)
  refine ⟨st1.order.map (fun k => (modNames ms).getD k ""), sequence_ok_map htopo hordeq w2 hlt2, ?_, ?_⟩
  · have hperm : st1.order.Perm (List.range (modNames ms).length) := by
      rw [List.perm_ext_iff_of_nodup w2 (List.nodup_range _)]
      intro a
      rw [List.mem_range]
      exact ⟨fun h => hlt2 a h, fun h => hall2 a h⟩
    have := hperm.map (fun k => (modNames ms).getD k "")
    rwa [map_getD_range] at this
  · intro m hm b hb hbn
    have hmn : m.name ∈ modNames ms := List.mem_map.mpr ⟨m, hm, rfl⟩
    obtain ⟨ia, hia⟩ := idxOf_mem hmn
    obtain ⟨ib, hib⟩ := idxOf_mem hbn
    have hedge : (modGraph ms).edge ia ib := by
      apply mem_buildEdges.mpr
      refine ⟨m.deps_for_graph, List.mem_map.mpr ⟨m, hm, rfl⟩, ?_, b, hb, ?_⟩
      · rw [inputs_fst]; exact hia
      · rw [inputs_fst]; exact hib
    have hiaord : ia ∈ st1.order := hall2 ia (idxOf_lt hia)
    have hibord : ib ∈ st1.order := hall2 ib (idxOf_lt hib)
    refine ⟨rank st1.order ib, rank st1.order ia,
      edge_rank_lt w4 w2 hedge hiaord, ?_, ?_⟩
    · rw [List.getElem?_map, getElem?_rank hibord]
      simp only [Option.map_some']
      congr 1
      rw [List.getD_eq_getElem?_getD, idxOf_some hib]
      rfl
    · rw [List.getElem?_map, getElem?_rank hiaord]
      simp only [Option.map_some']
      congr 1
      rw [List.getD_eq_getElem?_getD, idxOf_some hia]
      rfl

/-- Witness for C1 at a concrete input: two modules where "a" imports "b". -/
theorem sequence_acyclic_topological_witness :
    (modNames [⟨"a", ["b"]⟩, ⟨"b", []⟩]).Nodup ∧
    ¬ NameCyclic [⟨"a", ["b"]⟩, ⟨"b", []⟩] ∧
    ∃ l, sequence [⟨"a", ["b"]⟩, ⟨"b", []⟩] = .ok l ∧
      l.Perm (modNames [⟨"a", ["b"]⟩, ⟨"b", []⟩]) ∧
      ∀ m ∈ [(⟨"a", ["b"]⟩ : ParsedModule), ⟨"b", []⟩], ∀ b ∈ m.deps,
        b ∈ modNames [⟨"a", ["b"]⟩, ⟨"b", []⟩] →
        ∃ i j : Nat, i < j ∧ l[i]? = some b ∧ l[j]? = some m.name := by
  have hnd : (modNames [⟨"a", ["b"]⟩, ⟨"b", []⟩]).Nodup := by
    simp [modNames]
  have hstep : ∀ a b, importEdge [⟨"a", ["b"]⟩, ⟨"b", []⟩] a b → a = "a" ∧ b = "b" := by
    rintro a b ⟨m, hm, rfl, hb, hbn⟩
    rcases List.mem_cons.mp hm with rfl | hm2
    · simp at hb
      simp [hb]
    · rcases List.mem_cons.mp hm2 with rfl | hm3
      · simp at hb
      · simp at hm3
  have hac : ¬ NameCyclic [⟨"a", ["b"]⟩, ⟨"b", []⟩] := by
    rintro ⟨a, ha⟩
    have hgen : ∀ x y, Relation.TransGen (importEdge [⟨"a", ["b"]⟩, ⟨"b", []⟩]) x y →
        x = "a" ∧ y = "b" := by
      intro x y h
      induction h with
      | single hedge => exact hstep _ _ hedge
      | tail hab hedge ih =>
        obtain ⟨h1, h2⟩ := hstep _ _ hedge
        exact ⟨ih.1, h2⟩
    obtain ⟨h1, h2⟩ := hgen a a ha
    rw [h1] at h2
    simp at h2
  exact ⟨hnd, hac, sequence_acyclic_topological _ hnd hac⟩

theorem sequence_error_iff_nameCyclic (ms : List ParsedModule) :
    (∃ r, sequence ms = .error r) ↔ NameCyclic ms := by
  constructor
  · rintro ⟨r, h⟩
    obtain ⟨e, htopo⟩ := sequence_ok_of_toposort_ok h
    exact (nameCyclic_iff_cyclic ms).mpr
      ⟨e, (toposort_err_reaches (seqGraph_rangeOK _) htopo).1⟩
  · intro hnc
    have hcyc := (nameCyclic_iff_cyclic ms).mp hnc
    cases htopo : toposort (modGraph ms) with
    | ok ord => exact absurd hcyc (by simpa using toposort_ok_acyclic (seqGraph_rangeOK _) htopo)
    | error e => exact sequence_isErr_of_toposort_err htopo

/-- Claim C2: `sequence` fails exactly when the dependency graph over the
current module set (after dropping edges to identifiers outside the set) has
a cycle; `ImportCycle` carrying the module report is the sole failure mode
(the embedded error type carries nothing but the report), and on any acyclic
input it returns `.ok`. -/
theorem sequence_fails_iff_import_cycle (ms : List ParsedModule) :
    (∃ r, sequence ms = .error r) ↔ NameCyclic ms :=
  sequence_error_iff_nameCyclic ms

/-! ## Structure of `find_cycle` runs -/

/-- A failed (`false`) search leaves the path untouched, only grows the seen
set, and leaves behind a seen set in which no member has an edge back to the
origin and whose members' successors are all seen. -/
theorem fcRun_false (g : DGraph) (origin : Nat) : ∀ fuel ct path seen path1 seen1,
    findCycleRun g origin fuel ct path seen = some (false, path1, seen1) →
    path1 = path ∧ (∀ x ∈ seen, x ∈ seen1) ∧
    (match ct with
     | .start parent => parent ∈ seen1
     | .scan ns => ∀ n ∈ ns, n ≠ origin ∧ n ∈ seen1) ∧
    (∀ x ∈ seen1, x ∈ seen ∨
      (origin ∉ g.succs x ∧ ∀ s ∈ g.succs x, s ∈ seen1)) := by
  intro fuel
  induction fuel with
  | zero => intro ct path seen p1 s1 h; exact absurd h (by simp [findCycleRun])
  | succ fuel ih =>
    intro ct path seen path1 seen1 h
    cases ct with
    | start parent =>
      simp only [findCycleRun] at h
      obtain ⟨hpath, hmono, hns, hclosed⟩ := ih (.scan (g.neighbors parent)) path (parent :: seen) path1 seen1 h
      have hparent : parent ∈ seen1 := hmono parent (by simp)
      refine ⟨hpath, fun x hx => hmono x (by simp [hx]), hparent, ?_⟩
      intro x hx
      rcases hclosed x hx with hx2 | hblocked
      · rcases List.mem_cons.mp hx2 with rfl | hx3
        · right
          constructor
          · intro hor
            have : origin ∈ g.neighbors x := by
              simp [DGraph.neighbors, hor]
            exact (hns origin this).1 rfl
          · intro s hs
            have : s ∈ g.neighbors x := by
              simp [DGraph.neighbors, hs]
            exact (hns s this).2
        · exact Or.inl hx3
      · exact Or.inr hblocked
    | scan ns =>
      cases ns with
      | nil =>
        simp only [findCycleRun] at h
        obtain ⟨rfl, rfl⟩ : path = path1 ∧ seen = seen1 := by simpa using h
        exact ⟨rfl, fun x hx => hx, by simp, fun x hx => Or.inl hx⟩
      | cons node rest =>
        simp only [findCycleRun] at h
        by_cases hno : node = origin
        · rw [if_pos hno] at h
          simp at h
        · rw [if_neg hno] at h
          by_cases hnseen : node ∈ seen
          · rw [if_pos hnseen] at h
            obtain ⟨hpath, hmono, hns, hclosed⟩ := ih (.scan rest) path seen path1 seen1 h
            refine ⟨hpath, hmono, ?_, hclosed⟩
            intro n hn
            rcases List.mem_cons.mp hn with rfl | hn2
            · exact ⟨hno, hmono n hnseen⟩
            · exact hns n hn2
          · rw [if_neg hnseen] at h
            cases hrec : findCycleRun g origin fuel (.start node) path seen with
            | none => rw [hrec] at h; simp at h
            | some r =>
              rw [hrec] at h
              obtain ⟨b, path2, seen2⟩ := r
              cases b with
              | true => simp at h
              | false =>
                simp only at h
                obtain ⟨hpath2, hmono2, hnode2, hclosed2⟩ :=
                  ih (.start node) path seen path2 seen2 hrec
                obtain ⟨hpath, hmono, hns, hclosed⟩ := ih (.scan rest) path2 seen2 path1 seen1 h
                refine ⟨by rw [hpath, hpath2], fun x hx => hmono x (hmono2 x hx), ?_, ?_⟩
                · intro n hn
                  rcases List.mem_cons.mp hn with rfl | hn2
                  · exact ⟨hno, hmono n hnode2⟩
                  · exact hns n hn2
                · intro x hx
                  rcases hclosed x hx with hx2 | hblocked
                  · rcases hclosed2 x hx2 with hx3 | hblocked2
                    · exact Or.inl hx3
                    · exact Or.inr ⟨hblocked2.1, fun s hs => hmono s (hblocked2.2 s hs)⟩
                  · exact Or.inr hblocked

/-- A successful search appends a nonempty segment to the path, and that
segment starts with the origin. -/
theorem fcRun_true_head (g : DGraph) (origin : Nat) : ∀ fuel ct path seen path1 seen1,
    findCycleRun g origin fuel ct path seen = some (true, path1, seen1) →
    ∃ ap, path1 = path ++ ap ∧ ap.head? = some origin := by
  intro fuel
  induction fuel with
  | zero => intro ct path seen p1 s1 h; exact absurd h (by simp [findCycleRun])
  | succ fuel ih =>
    intro ct path seen path1 seen1 h
    cases ct with
    | start parent =>
      simp only [findCycleRun] at h
      exact ih (.scan (g.neighbors parent)) path (parent :: seen) path1 seen1 h
    | scan ns =>
      cases ns with
      | nil => simp [findCycleRun] at h
      | cons node rest =>
        simp only [findCycleRun] at h
        by_cases hno : node = origin
        · rw [if_pos hno] at h
          obtain ⟨rfl, rfl⟩ : path ++ [node] = path1 ∧ seen = seen1 := by simpa using h
          exact ⟨[node], rfl, by simp [hno]⟩
        · rw [if_neg hno] at h
          by_cases hnseen : node ∈ seen
          · rw [if_pos hnseen] at h
            exact ih (.scan rest) path seen path1 seen1 h
          · rw [if_neg hnseen] at h
            cases hrec : findCycleRun g origin fuel (.start node) path seen with
            | none => rw [hrec] at h; simp at h
            | some r =>
              rw [hrec] at h
              obtain ⟨b, path2, seen2⟩ := r
              cases b with
              | true =>
                simp only at h
                obtain ⟨rfl, rfl⟩ : path2 ++ [node] = path1 ∧ seen2 = seen1 := by simpa using h
                obtain ⟨ap, rfl, hhead⟩ := ih (.start node) path seen path2 seen2 hrec
                refine ⟨ap ++ [node], by simp, ?_⟩
                rw [List.head?_append, hhead]
                rfl
              | false =>
                simp only at h
                have hpath2 : path2 = path :=
                  (fcRun_false g origin fuel (.start node) path seen path2 seen2 hrec).1
                subst hpath2
                exact ih (.scan rest) path2 seen2 path1 seen1 h

/-- The cycle search never runs out of fuel (for the fuel `find_cycle`
supplies). -/
theorem fcRun_total (g : DGraph) (hr : RangeOK g) (origin : Nat) : ∀ fuel ct path seen,
    (match ct with
     | .start parent => parent < g.numNodes ∧ parent ∉ seen ∧
         undiscL g.numNodes seen * (g.edges.length + 2) ≤ fuel
     | .scan ns => (∀ n ∈ ns, n < g.numNodes) ∧
         undiscL g.numNodes seen * (g.edges.length + 2) + ns.length + 1 ≤ fuel) →
    findCycleRun g origin fuel ct path seen ≠ none := by
  intro fuel
  induction fuel with
  | zero =>
    intro ct path seen hpre
    cases ct with
    | start parent =>
      obtain ⟨hp, hps, harith⟩ := hpre
      have h1 := undiscL_pos hp hps
      nlinarith
    | scan ns =>
      obtain ⟨_, harith⟩ := hpre
      omega
  | succ fuel ih =>
    intro ct path seen hpre
    cases ct with
    | start parent =>
      obtain ⟨hp, hps, harith⟩ := hpre
      simp only [findCycleRun]
      apply ih
      refine ⟨?_, ?_⟩
      · intro n hn
        simp only [DGraph.neighbors, List.mem_reverse] at hn
        exact (hr _ (mem_succs.mp hn)).2
      · have hcount := @undiscL_cons g.numNodes parent seen hp hps
        have hlen : (g.neighbors parent).length ≤ g.edges.length := by
          simpa [DGraph.neighbors] using succs_length_le g parent
        rw [hcount, Nat.succ_mul] at harith
        omega
    | scan ns =>
      obtain ⟨hrange, harith⟩ := hpre
      cases ns with
      | nil => simp [findCycleRun]
      | cons node rest =>
        simp only [findCycleRun]
        by_cases hno : node = origin
        · rw [if_pos hno]
          simp
        · rw [if_neg hno]
          by_cases hnseen : node ∈ seen
          · rw [if_pos hnseen]
            apply ih
            refine ⟨fun x hx => hrange x (by simp [hx]), ?_⟩
            simp only [List.length_cons] at harith
            omega
          · rw [if_neg hnseen]
            have hnode : node < g.numNodes := hrange node (by simp)
            have hstart : findCycleRun g origin fuel (.start node) path seen ≠ none := by
              apply ih
              refine ⟨hnode, hnseen, ?_⟩
              simp only [List.length_cons] at harith
              omega
            cases hrec : findCycleRun g origin fuel (.start node) path seen with
            | none => exact absurd hrec hstart
            | some r =>
              obtain ⟨b, path2, seen2⟩ := r
              cases b with
              | true => simp
              | false =>
                simp only
                apply ih
                refine ⟨fun x hx => hrange x (by simp [hx]), ?_⟩
                have hmono : ∀ x ∈ seen, x ∈ seen2 :=
                  (fcRun_false g origin fuel (.start node) path seen path2 seen2 hrec).2.1
                have hu : undiscL g.numNodes seen2 ≤ undiscL g.numNodes seen :=
                  undiscL_mono hmono
                have := Nat.mul_le_mul_right (g.edges.length + 2) hu
                simp only [List.length_cons] at harith
                omega

theorem undiscL_nil (n : Nat) : undiscL n [] = n := by
  simp [undiscL]

/-- A seen set closed under successors and avoiding back edges to the origin
cannot contain a node that reaches the origin. -/
theorem blocked_no_reach {g : DGraph} {S : List Nat} {origin : Nat}
    (hcl : ∀ x ∈ S, origin ∉ g.succs x ∧ ∀ s ∈ g.succs x, s ∈ S) :
    ∀ x ∈ S, ¬ g.Reaches x origin := by
  intro x hx h
  have h2 : Relation.TransGen (Function.swap g.edge) origin x := h.swap
  clear h
  revert hx
  induction h2 with
  | single h1 => intro hx; exact (hcl _ hx).1 (mem_succs.mpr h1)
  | tail h1 hedge ih => intro hx; exact ih ((hcl _ hx).2 _ (mem_succs.mpr hedge))


/-- From a node lying on a cycle, `find_cycle` succeeds and its path starts
with that node. -/
theorem find_cycle_success {g : DGraph} {origin : Nat} (hr : RangeOK g)
    (hlt : origin < g.numNodes) (hcyc : g.Reaches origin origin) :
    ∃ path1 seen1, find_cycle g origin = some (true, path1, seen1) ∧
      path1.head? = some origin := by
  have htotal : findCycleRun g origin (topoFuel g) (.start origin) [] [] ≠ none := by
    apply fcRun_total g hr origin
    refine ⟨hlt, by simp, ?_⟩
    rw [undiscL_nil]
    show g.numNodes * (g.edges.length + 2) ≤ (g.numNodes + 1) * (g.edges.length + 2)
    exact Nat.mul_le_mul_right _ (by omega)
  cases hrun : findCycleRun g origin (topoFuel g) (.start origin) [] [] with
  | none => exact absurd hrun htotal
  | some r =>
    obtain ⟨b, path1, seen1⟩ := r
    cases b with
    | false =>
      obtain ⟨_, _, horigin, hclosed⟩ :=
        fcRun_false g origin (topoFuel g) (.start origin) [] [] path1 seen1 hrun
      have hcl : ∀ x ∈ seen1, origin ∉ g.succs x ∧ ∀ s ∈ g.succs x, s ∈ seen1 := by
        intro x hx
        rcases hclosed x hx with hc | hc
        · simp at hc
        · exact hc
      exact absurd hcyc (blocked_no_reach hcl origin horigin)
    | true =>
      obtain ⟨ap, hap, hhead⟩ :=
        fcRun_true_head g origin (topoFuel g) (.start origin) [] [] path1 seen1 hrun
      refine ⟨path1, seen1, hrun, ?_⟩
      rw [hap]
      simpa using hhead

/-- Internal form of the amended claim C4: whenever `sequence` fails, the
report's first element is the identifier of the origin node reported by the
sort. -/
theorem report_head_eq_origin {ms : List ParsedModule} {r : List String} {e : Nat}
    (hseq : sequence ms = .error r)
    (htopo : toposort (modGraph ms) = .error e) :
    ∃ nm, (modNames ms)[e]? = some nm ∧ r.head? = some nm := by
  have hr := seqGraph_rangeOK (ms.map ParsedModule.deps_for_graph)
  obtain ⟨hreach, helt⟩ := toposort_err_reaches hr htopo
  obtain ⟨path1, seen1, hfc, hhead⟩ := find_cycle_success hr helt hreach
  have hseq2 := sequence_eq_err_fc htopo hfc
  rw [hseq] at hseq2
  have hrr : r = removeFold path1 ((modNames ms).enum) := by
    simpa using hseq2
  obtain ⟨hd, tail1, rfl⟩ : ∃ hd t, path1 = hd :: t := by
    cases path1 with
    | nil => simp at hhead
    | cons a t => exact ⟨a, t, rfl⟩
  have hde : hd = e := by simpa using hhead
  subst hde
  have helt2 : hd < (modNames ms).length := by
    have hnn : (seqGraph (ms.map ParsedModule.deps_for_graph)).numNodes =
        (modNames ms).length := by
      simp [seqGraph, modNames]
    omega
  have hmem : ((hd, (modNames ms).get ⟨hd, helt2⟩)) ∈ (modNames ms).enum := by
    apply mem_enum_iff.mpr
    simp [List.getElem?_eq_getElem helt2]
  cases hrf : removeFirst ((modNames ms).enum) hd with
  | none =>
    have := removeFirst_none_iff.mp hrf _ hmem
    simp at this
  | some p =>
    obtain ⟨v, vals2⟩ := p
    have hv : lookupV ((modNames ms).enum) hd = some v := removeFirst_some_lookup hrf
    rw [lookupV_enum] at hv
    refine ⟨v, hv, ?_⟩
    rw [hrr]
    simp only [removeFold]
    rw [hrf]
    rfl

/-! ## Claims C4 and C10 -/

/-- Counterexample to claim C4 as stated: on the two-module cycle
{x imports y, y imports x} the sort reports node 1 ("y") and the search
started there, but the report is ["y", "x"] — its last element is "x", not
the origin "y".  (The origin is the report's first element.) -/
theorem cycle_report_last_not_origin :
    sequence [⟨"x", ["y"]⟩, ⟨"y", ["x"]⟩] = .error ["y", "x"] ∧
    toposort (modGraph [⟨"x", ["y"]⟩, ⟨"y", ["x"]⟩]) = .error 1 ∧
    (modNames [⟨"x", ["y"]⟩, ⟨"y", ["x"]⟩])[1]? = some "y" ∧
    ["y", "x"].getLast? = some "x" ∧ ("x" : String) ≠ "y" :=
  ⟨rfl, rfl, rfl, rfl, by decide⟩

/-- Claim C4 (amended): whenever `sequence` fails with `ImportCycle`, the
reported path of module identifiers BEGINS with the origin module (the node
reported by the toposort, from which the cycle search was started); the
search pushes the origin at the moment it closes the cycle and pushes the
remaining nodes only while unwinding, so the origin is the first element,
not the last. -/
theorem cycle_report_starts_at_origin (ms : List ParsedModule)
    (r : List String) (e : Nat) (hseq : sequence ms = .error r)
    (htopo : toposort (modGraph ms) = .error e) :
    ∃ nm, (modNames ms)[e]? = some nm ∧ r.head? = some nm :=
  report_head_eq_origin hseq htopo

/-- Witness for the amended C4 at the two-module cycle. -/
theorem cycle_report_starts_at_origin_witness :
    sequence [⟨"x", ["y"]⟩, ⟨"y", ["x"]⟩] = .error ["y", "x"] ∧
    toposort (modGraph [⟨"x", ["y"]⟩, ⟨"y", ["x"]⟩]) = .error 1 ∧
    ∃ nm, (modNames [⟨"x", ["y"]⟩, ⟨"y", ["x"]⟩])[1]? = some nm ∧
      ["y", "x"].head? = some nm :=
  ⟨rfl, rfl, cycle_report_starts_at_origin [⟨"x", ["y"]⟩, ⟨"y", ["x"]⟩] ["y", "x"] 1 rfl rfl⟩

/-- Counterexample to claim C10 as stated: in the set
{x imports [x, y], y imports [x]} the module "x" imports itself and is the
node reported by the sort, yet the cycle report is ["x", "y"], not just
["x"]: the search tries the neighbor "y" before the self edge (neighbors are
iterated in reverse insertion order) and finds the longer cycle first. -/
theorem self_import_report_not_singleton :
    ("x" ∈ (⟨"x", ["x", "y"]⟩ : ParsedModule).deps) ∧
    sequence [⟨"x", ["x", "y"]⟩, ⟨"y", ["x"]⟩] = .error ["x", "y"] ∧
    toposort (modGraph [⟨"x", ["x", "y"]⟩, ⟨"y", ["x"]⟩]) = .error 0 ∧
    (modNames [⟨"x", ["x", "y"]⟩, ⟨"y", ["x"]⟩])[0]? = some "x" ∧
    (["x", "y"] : List String) ≠ ["x"] :=
  ⟨by decide, rfl, rfl, rfl, by decide⟩

/-- Claim C10 (amended): a module set containing a module that imports
itself always fails to sequence, and if that module is the node reported by
the sort, the cycle report BEGINS with that module's identifier (it is the
whole report only when the self edge is the first neighbor the search
tries). -/
theorem self_import_fails (ms : List ParsedModule) (m : ParsedModule)
    (hm : m ∈ ms) (hself : m.name ∈ m.deps) :
    (∃ r, sequence ms = .error r) ∧
    ∀ r e, sequence ms = .error r → toposort (modGraph ms) = .error e →
      (modNames ms)[e]? = some m.name → r.head? = some m.name := by
  constructor
  · apply (sequence_error_iff_nameCyclic ms).mpr
    refine ⟨m.name, .single ⟨m, hm, rfl, hself, ?_⟩⟩
    exact List.mem_map.mpr ⟨m, hm, rfl⟩
  · intro r e hseq htopo hname
    obtain ⟨nm, hnm, hhead⟩ := report_head_eq_origin hseq htopo
    rw [hname] at hnm
    rw [hhead, Option.some.inj hnm]

/-- Witness for the amended C10 at the concrete self-importing set. -/
theorem self_import_fails_witness :
    (∃ r, sequence [⟨"x", ["x", "y"]⟩, ⟨"y", ["x"]⟩] = .error r) ∧
    (["x", "y"] : List String).head? = some "x" := by
  have h := self_import_fails [⟨"x", ["x", "y"]⟩, ⟨"y", ["x"]⟩] ⟨"x", ["x", "y"]⟩
    (List.mem_cons_self _ _) (by decide)
  exact ⟨h.1, h.2 ["x", "y"] 0 rfl rfl rfl⟩

/-! ## Claim C3 -/

/-- Counterexample to claim C3 as stated: for the triangle
a imports b, b imports c, c imports a, the report is ["c", "b", "a"], and
read in listed order it is NOT a closed walk of the import graph — its first
step would need the edge "c imports b", which does not exist.  (The report
lists the cycle in reverse edge direction.) -/
theorem triangle_report_not_forward_walk :
    sequence [⟨"a", ["b"]⟩, ⟨"b", ["c"]⟩, ⟨"c", ["a"]⟩] = .error ["c", "b", "a"] ∧
    ¬ importEdge [⟨"a", ["b"]⟩, ⟨"b", ["c"]⟩, ⟨"c", ["a"]⟩] "c" "b" :=
  ⟨rfl, by decide⟩

/-- Claim C3 (amended): for the two-module set {X imports Y, Y imports X},
`sequence` fails with `ImportCycle` whose report, read as a cyclic path,
consists only of X and Y with each edge of the path present in the graph;
for the triangle A imports B, B imports C, C imports A, `sequence` fails and
the report visits exactly those three identifiers, each appearing once, and
read in REVERSE it is a closed walk of the import graph (consecutive report
elements are linked by edges in the reverse direction: each element is
brought in by its successor). -/
theorem two_cycle_triangle_reports (X Y A B C : String)
    (hxy : X ≠ Y) (hab : A ≠ B) (hbc : B ≠ C) (hac : A ≠ C) :
    (sequence [⟨X, [Y]⟩, ⟨Y, [X]⟩] = .error [Y, X] ∧
      ([Y, X] : List String).Perm [X, Y] ∧ ([Y, X] : List String).Nodup ∧
      importEdge [⟨X, [Y]⟩, ⟨Y, [X]⟩] Y X ∧
      importEdge [⟨X, [Y]⟩, ⟨Y, [X]⟩] X Y) ∧
    (sequence [⟨A, [B]⟩, ⟨B, [C]⟩, ⟨C, [A]⟩] = .error [C, B, A] ∧
      ([C, B, A] : List String).Perm [A, B, C] ∧ ([C, B, A] : List String).Nodup ∧
      importEdge [⟨A, [B]⟩, ⟨B, [C]⟩, ⟨C, [A]⟩] A B ∧
      importEdge [⟨A, [B]⟩, ⟨B, [C]⟩, ⟨C, [A]⟩] B C ∧
      importEdge [⟨A, [B]⟩, ⟨B, [C]⟩, ⟨C, [A]⟩] C A) := by
  constructor
  · have h1 : (X == Y) = false := beq_eq_false_iff_ne.mpr hxy
    have h2 : (Y == X) = false := beq_eq_false_iff_ne.mpr (Ne.symm hxy)
    have hedges : buildEdges ([⟨X, [Y]⟩, ⟨Y, [X]⟩].map ParsedModule.deps_for_graph) =
        [(0, 1), (1, 0)] := by
      simp [buildEdges, buildRow, idxOf, List.enum, List.enumFrom, List.filter,
        ParsedModule.deps_for_graph, h1, h2]
    have hgraph : modGraph [⟨X, [Y]⟩, ⟨Y, [X]⟩] = ⟨2, [(0, 1), (1, 0)]⟩ := by
      unfold modGraph seqGraph
      rw [hedges]
      rfl
    have htopo : toposort (modGraph [⟨X, [Y]⟩, ⟨Y, [X]⟩]) = .error 1 := by
      rw [hgraph]
      rfl
    have hfc : find_cycle (modGraph [⟨X, [Y]⟩, ⟨Y, [X]⟩]) 1 =
        some (true, [1, 0], [0, 1]) := by
      rw [hgraph]
      rfl
    refine ⟨sequence_eq_err_fc htopo hfc, ?_, ?_, ?_, ?_⟩
    · exact List.Perm.swap X Y []
    · simp [Ne.symm hxy]
    · exact ⟨⟨Y, [X]⟩, by simp, rfl, by simp, by simp⟩
    · exact ⟨⟨X, [Y]⟩, by simp, rfl, by simp, by simp⟩
  · have h1 : (A == B) = false := beq_eq_false_iff_ne.mpr hab
    have h2 : (B == A) = false := beq_eq_false_iff_ne.mpr (Ne.symm hab)
    have h3 : (B == C) = false := beq_eq_false_iff_ne.mpr hbc
    have h4 : (C == B) = false := beq_eq_false_iff_ne.mpr (Ne.symm hbc)
    have h5 : (A == C) = false := beq_eq_false_iff_ne.mpr hac
    have h6 : (C == A) = false := beq_eq_false_iff_ne.mpr (Ne.symm hac)
    have hedges : buildEdges ([⟨A, [B]⟩, ⟨B, [C]⟩, ⟨C, [A]⟩].map ParsedModule.deps_for_graph) =
        [(0, 1), (1, 2), (2, 0)] := by
      simp [buildEdges, buildRow, idxOf, List.enum, List.enumFrom, List.filter,
        ParsedModule.deps_for_graph, h1, h2, h3, h4, h5, h6]
    have hgraph : modGraph [⟨A, [B]⟩, ⟨B, [C]⟩, ⟨C, [A]⟩] = ⟨3, [(0, 1), (1, 2), (2, 0)]⟩ := by
      unfold modGraph seqGraph
      rw [hedges]
      rfl
    have htopo : toposort (modGraph [⟨A, [B]⟩, ⟨B, [C]⟩, ⟨C, [A]⟩]) = .error 2 := by
      rw [hgraph]
      rfl
    have hfc : find_cycle (modGraph [⟨A, [B]⟩, ⟨B, [C]⟩, ⟨C, [A]⟩]) 2 =
        some (true, [2, 1, 0], [1, 0, 2]) := by
      rw [hgraph]
      rfl
    refine ⟨sequence_eq_err_fc htopo hfc, List.reverse_perm [A, B, C], ?_, ?_, ?_, ?_⟩
    · simp [Ne.symm hab, Ne.symm hbc, Ne.symm hac, hbc, hac, hab]
    · exact ⟨⟨A, [B]⟩, by simp, rfl, by simp, by simp⟩
    · exact ⟨⟨B, [C]⟩, by simp, rfl, by simp, by simp⟩
    · exact ⟨⟨C, [A]⟩, by simp, rfl, by simp, by simp⟩

/-- Witness for the amended C3 at concrete distinct names. -/
theorem two_cycle_triangle_reports_witness :
    (("x" : String) ≠ "y" ∧ ("a" : String) ≠ "b" ∧ ("b" : String) ≠ "c" ∧
      ("a" : String) ≠ "c") ∧
    sequence [⟨"x", ["y"]⟩, ⟨"y", ["x"]⟩] = .error ["y", "x"] ∧
    sequence [⟨"a", ["b"]⟩, ⟨"b", ["c"]⟩, ⟨"c", ["a"]⟩] = .error ["c", "b", "a"] := by
  have h := two_cycle_triangle_reports "x" "y" "a" "b" "c"
    (by decide) (by decide) (by decide) (by decide)
  exact ⟨⟨by decide, by decide, by decide, by decide⟩, h.1.1, h.2.1⟩

/-! ## Claim C7 -/

theorem modNames_insert_eq (L1 L2 : List ParsedModule) (nm : String)
    (ds1 ds2 : List String) :
    modNames (L1 ++ ⟨nm, ds1⟩ :: L2) = modNames (L1 ++ ⟨nm, ds2⟩ :: L2) := by
  simp [modNames]

/-- Two module sets with the same graph and the same name list sequence
identically. -/
theorem sequence_congr {ms1 ms2 : List ParsedModule}
    (hg : seqGraph (ms1.map ParsedModule.deps_for_graph) =
      seqGraph (ms2.map ParsedModule.deps_for_graph))
    (hn : (ms1.map ParsedModule.deps_for_graph).map Prod.fst =
      (ms2.map ParsedModule.deps_for_graph).map Prod.fst) :
    sequence ms1 = sequence ms2 := by
  show (match toposort (seqGraph (ms1.map ParsedModule.deps_for_graph)) with
    | Except.ok order =>
      Except.ok (removeFold order (((ms1.map ParsedModule.deps_for_graph).map Prod.fst).enum)).reverse
    | Except.error origin =>
      match find_cycle (seqGraph (ms1.map ParsedModule.deps_for_graph)) origin with
      | some r =>
        Except.error (removeFold r.2.1 (((ms1.map ParsedModule.deps_for_graph).map Prod.fst).enum))
      | none => Except.error []) =
    (match toposort (seqGraph (ms2.map ParsedModule.deps_for_graph)) with
    | Except.ok order =>
      Except.ok (removeFold order (((ms2.map ParsedModule.deps_for_graph).map Prod.fst).enum)).reverse
    | Except.error origin =>
      match find_cycle (seqGraph (ms2.map ParsedModule.deps_for_graph)) origin with
      | some r =>
        Except.error (removeFold r.2.1 (((ms2.map ParsedModule.deps_for_graph).map Prod.fst).enum))
      | none => Except.error [])
  rw [hg, hn]

theorem buildRow_skip (names : List String) (nm : String)
    (dpre dpost : List String) (d : String) (hd : idxOf names d = none) :
    buildRow names (nm, dpre ++ d :: dpost) = buildRow names (nm, dpre ++ dpost) := by
  unfold buildRow
  cases idxOf names nm with
  | none => rfl
  | some i =>
    simp only
    rw [List.filterMap_append, List.filterMap_append, List.filterMap_cons, hd]
    rfl

theorem flatMap_middle {α β : Type} (f : α → List β) (L1 L2 : List α) (a b : α)
    (h : f a = f b) :
    (L1 ++ a :: L2).flatMap f = (L1 ++ b :: L2).flatMap f := by
  simp only [List.flatMap_append, List.flatMap_cons, h]

/-- Claim C7: an imported identifier absent from the module set contributes
no edge during graph construction, causes no error, and the result of
`sequence` is identical to what it would be had that import not been there
at all. -/
theorem sequence_skips_unknown_imports (L1 L2 : List ParsedModule)
    (nm : String) (dpre dpost : List String) (d : String)
    (hd : d ∉ modNames (L1 ++ ⟨nm, dpre ++ d :: dpost⟩ :: L2)) :
    buildEdges ((L1 ++ ⟨nm, dpre ++ d :: dpost⟩ :: L2).map ParsedModule.deps_for_graph) =
      buildEdges ((L1 ++ ⟨nm, dpre ++ dpost⟩ :: L2).map ParsedModule.deps_for_graph) ∧
    sequence (L1 ++ ⟨nm, dpre ++ d :: dpost⟩ :: L2) =
      sequence (L1 ++ ⟨nm, dpre ++ dpost⟩ :: L2) := by
  have hnames : ((L1 ++ ⟨nm, dpre ++ d :: dpost⟩ :: L2).map ParsedModule.deps_for_graph).map Prod.fst =
      ((L1 ++ ⟨nm, dpre ++ dpost⟩ :: L2).map ParsedModule.deps_for_graph).map Prod.fst := by
    rw [inputs_fst, inputs_fst]
    exact modNames_insert_eq L1 L2 nm _ _
  have hdnone : idxOf (((L1 ++ ⟨nm, dpre ++ d :: dpost⟩ :: L2).map ParsedModule.deps_for_graph).map Prod.fst) d = none := by
    apply idxOf_none_iff.mpr
    rw [inputs_fst]
    exact hd
  have hedges : buildEdges ((L1 ++ ⟨nm, dpre ++ d :: dpost⟩ :: L2).map ParsedModule.deps_for_graph) =
      buildEdges ((L1 ++ ⟨nm, dpre ++ dpost⟩ :: L2).map ParsedModule.deps_for_graph) := by
    unfold buildEdges
    rw [← hnames]
    simp only [List.map_append, List.map_cons, ParsedModule.deps_for_graph] at hdnone ⊢
    exact flatMap_middle _ _ _ _ _ (buildRow_skip _ nm dpre dpost d hdnone)
  refine ⟨hedges, ?_⟩
  apply sequence_congr ?_ hnames
  unfold seqGraph
  rw [hedges]
  simp

/-- Witness for C7: adding the unknown import "ext" to module "a" leaves the
sequencing result unchanged. -/
theorem sequence_skips_unknown_imports_witness :
    ("ext" ∉ modNames ([] ++ ⟨"a", [] ++ "ext" :: ["b"]⟩ :: [⟨"b", []⟩])) ∧
    sequence ([] ++ ⟨"a", [] ++ "ext" :: ["b"]⟩ :: [⟨"b", []⟩]) =
      sequence ([] ++ ⟨"a", [] ++ ["b"]⟩ :: [⟨"b", []⟩]) := by
  have hd : "ext" ∉ modNames ([] ++ ⟨"a", [] ++ "ext" :: ["b"]⟩ :: [⟨"b", []⟩]) := by
    decide
  exact ⟨hd, (sequence_skips_unknown_imports [] [⟨"b", []⟩] "a" [] ["b"] "ext" hd).2⟩

/-! ## The global symbol table (claims C5, C9) -/

theorem imLookup_cons_self {K V : Type} [DecidableEq K]
    (rest : List (K × V)) (k : K) (v : V) :
    imLookup ((k, v) :: rest) k = some v := by
  unfold imLookup
  rw [List.find?_cons_of_pos _ (by simp)]
  rfl

theorem imLookup_cons_ne {K V : Type} [DecidableEq K]
    (rest : List (K × V)) (k1 k : K) (v : V) (h : ¬ k1 = k) :
    imLookup ((k1, v) :: rest) k = imLookup rest k := by
  unfold imLookup
  rw [List.find?_cons_of_neg _ (by simpa using h)]

theorem imLookup_imInsert_self {K V : Type} [DecidableEq K]
    (m : List (K × V)) (k : K) (v : V) :
    imLookup (imInsert m k v) k = some v := by
  induction m with
  | nil =>
    show imLookup [(k, v)] k = some v
    exact imLookup_cons_self [] k v
  | cons p rest ih =>
    obtain ⟨k1, v1⟩ := p
    show imLookup (if k1 = k then (k, v) :: rest else (k1, v1) :: imInsert rest k v) k = some v
    by_cases hk : k1 = k
    · rw [if_pos hk]
      exact imLookup_cons_self rest k v
    · rw [if_neg hk, imLookup_cons_ne _ _ _ _ hk]
      exact ih

theorem imLookup_imInsert_ne {K V : Type} [DecidableEq K]
    (m : List (K × V)) (k k2 : K) (v : V) (h : k2 ≠ k) :
    imLookup (imInsert m k v) k2 = imLookup m k2 := by
  have hne : ¬ k = k2 := fun hc => h hc.symm
  induction m with
  | nil =>
    show imLookup [(k, v)] k2 = imLookup ([] : List (K × V)) k2
    rw [imLookup_cons_ne _ _ _ _ hne]
  | cons p rest ih =>
    obtain ⟨k1, v1⟩ := p
    show imLookup (if k1 = k then (k, v) :: rest else (k1, v1) :: imInsert rest k v) k2 =
      imLookup ((k1, v1) :: rest) k2
    by_cases hk : k1 = k
    · rw [if_pos hk, imLookup_cons_ne _ _ _ _ hne, imLookup_cons_ne _ _ _ _ (hk ▸ hne)]
    · rw [if_neg hk]
      by_cases hk2 : k1 = k2
      · subst hk2
        rw [imLookup_cons_self, imLookup_cons_self]
      · rw [imLookup_cons_ne _ _ _ _ hk2, imLookup_cons_ne _ _ _ _ hk2]
        exact ih

theorem lastMatch_nil {K V : Type} [DecidableEq K] (k : K) :
    lastMatch ([] : List (K × V)) k = none := rfl

theorem lastMatch_append {K V : Type} [DecidableEq K]
    (A B : List (K × V)) (k : K) :
    lastMatch (A ++ B) k = (lastMatch B k).or (lastMatch A k) := by
  unfold lastMatch
  rw [List.filter_append, List.getLast?_append]
  cases (B.filter (fun p => decide (p.1 = k))).getLast? <;> simp

theorem lastMatch_cons_self {K V : Type} [DecidableEq K]
    (l : List (K × V)) (k : K) (v : V) :
    lastMatch ((k, v) :: l) k = (lastMatch l k).or (some v) := by
  have h : (k, v) :: l = [(k, v)] ++ l := rfl
  rw [h, lastMatch_append]
  cases lastMatch l k <;> simp [lastMatch]

theorem lastMatch_cons_ne {K V : Type} [DecidableEq K]
    (l : List (K × V)) (k1 k : K) (v : V) (h : k1 ≠ k) :
    lastMatch ((k1, v) :: l) k = lastMatch l k := by
  unfold lastMatch
  rw [List.filter_cons, if_neg (by simpa using h)]

theorem or_some_or {α : Type} (x z : Option α) (v : α) :
    (x.or (some v)).or z = x.or (some v) := by
  cases x <;> simp

theorem collectFns_aux (mname : String) (k : FunctionAccessKey) :
    ∀ (defs : List Definition) (acc : List (FunctionAccessKey × TypedFunction)),
    imLookup (defs.foldl (fun a d =>
      match d with
      | .Fn f => imInsert a ⟨mname, f.name⟩ f
      | _ => a) acc) k =
    (lastMatch (defs.filterMap (fun d =>
      match d with
      | .Fn f => some ((⟨mname, f.name⟩ : FunctionAccessKey), f)
      | _ => none)) k).or (imLookup acc k) := by
  intro defs
  induction defs with
  | nil => intro acc; simp [lastMatch_nil]
  | cons d rest ih =>
    intro acc
    cases d with
    | Fn f =>
      show imLookup (rest.foldl _ (imInsert acc ⟨mname, f.name⟩ f)) k =
        (lastMatch ((((⟨mname, f.name⟩ : FunctionAccessKey), f)) :: _) k).or (imLookup acc k)
      rw [ih]
      by_cases hk : (⟨mname, f.name⟩ : FunctionAccessKey) = k
      · rw [hk, imLookup_imInsert_self]
        have h2 := lastMatch_cons_self
          (rest.filterMap (fun d =>
            match d with
            | .Fn f => some ((⟨mname, f.name⟩ : FunctionAccessKey), f)
            | _ => none)) k f
        rw [← hk] at h2 ⊢
        rw [hk] at h2 ⊢
        rw [h2, Option.or_assoc]
        cases lastMatch (rest.filterMap (fun d =>
          match d with
          | .Fn f => some ((⟨mname, f.name⟩ : FunctionAccessKey), f)
          | _ => none)) k <;> simp
      · rw [imLookup_imInsert_ne _ _ _ _ (fun hc => hk hc.symm)]
        rw [lastMatch_cons_ne _ _ _ _ hk]
    | DataType dt => exact ih acc
    | TypeAlias t => exact ih acc
    | ModuleConstant c => exact ih acc
    | Test t => exact ih acc
    | Validator v => exact ih acc
    | Use u => exact ih acc

theorem collectDts_aux (mname : String) (k : DataTypeKey) :
    ∀ (defs : List Definition) (acc : List (DataTypeKey × TypedDataType)),
    imLookup (defs.foldl (fun a d =>
      match d with
      | .DataType dt => imInsert a ⟨mname, dt.name⟩ dt
      | _ => a) acc) k =
    (lastMatch (defs.filterMap (fun d =>
      match d with
      | .DataType dt => some ((⟨mname, dt.name⟩ : DataTypeKey), dt)
      | _ => none)) k).or (imLookup acc k) := by
  intro defs
  induction defs with
  | nil => intro acc; simp [lastMatch_nil]
  | cons d rest ih =>
    intro acc
    cases d with
    | DataType dt =>
      show imLookup (rest.foldl _ (imInsert acc ⟨mname, dt.name⟩ dt)) k =
        (lastMatch ((((⟨mname, dt.name⟩ : DataTypeKey), dt)) :: _) k).or (imLookup acc k)
      rw [ih]
      by_cases hk : (⟨mname, dt.name⟩ : DataTypeKey) = k
      · rw [hk, imLookup_imInsert_self]
        have h2 := lastMatch_cons_self
          (rest.filterMap (fun d =>
            match d with
            | .DataType dt => some ((⟨mname, dt.name⟩ : DataTypeKey), dt)
            | _ => none)) k dt
        rw [← hk] at h2 ⊢
        rw [hk] at h2 ⊢
        rw [h2, Option.or_assoc]
        cases lastMatch (rest.filterMap (fun d =>
          match d with
          | .DataType dt => some ((⟨mname, dt.name⟩ : DataTypeKey), dt)
          | _ => none)) k <;> simp
      · rw [imLookup_imInsert_ne _ _ _ _ (fun hc => hk hc.symm)]
        rw [lastMatch_cons_ne _ _ _ _ hk]
    | Fn f => exact ih acc
    | TypeAlias t => exact ih acc
    | ModuleConstant c => exact ih acc
    | Test t => exact ih acc
    | Validator v => exact ih acc
    | Use u => exact ih acc

theorem collectFns_lookup (m : CheckedModule)
    (acc : List (FunctionAccessKey × TypedFunction)) (k : FunctionAccessKey) :
    imLookup (collectFns acc m) k = (lastMatch (fnEntriesOf m) k).or (imLookup acc k) :=
  collectFns_aux m.name k m.ast acc

theorem collectDts_lookup (m : CheckedModule)
    (acc : List (DataTypeKey × TypedDataType)) (k : DataTypeKey) :
    imLookup (collectDts acc m) k = (lastMatch (dtEntriesOf m) k).or (imLookup acc k) :=
  collectDts_aux m.name k m.ast acc

theorem foldl_collectFns_lookup (k : FunctionAccessKey) : ∀ (ms : List CheckedModule)
    (acc : List (FunctionAccessKey × TypedFunction)),
    imLookup (ms.foldl collectFns acc) k =
      (lastMatch (userFnEntries ms) k).or (imLookup acc k) := by
  intro ms
  induction ms with
  | nil => intro acc; simp [userFnEntries, lastMatch_nil]
  | cons m rest ih =>
    intro acc
    rw [List.foldl_cons, ih, collectFns_lookup]
    have happ : userFnEntries (m :: rest) = fnEntriesOf m ++ userFnEntries rest := by
      simp [userFnEntries]
    rw [happ, lastMatch_append, Option.or_assoc]

theorem foldl_collectDts_lookup (k : DataTypeKey) : ∀ (ms : List CheckedModule)
    (acc : List (DataTypeKey × TypedDataType)),
    imLookup (ms.foldl collectDts acc) k =
      (lastMatch (userDtEntries ms) k).or (imLookup acc k) := by
  intro ms
  induction ms with
  | nil => intro acc; simp [userDtEntries, lastMatch_nil]
  | cons m rest ih =>
    intro acc
    rw [List.foldl_cons, ih, collectDts_lookup]
    have happ : userDtEntries (m :: rest) = dtEntriesOf m ++ userDtEntries rest := by
      simp [userDtEntries]
    rw [happ, lastMatch_append, Option.or_assoc]

theorem new_generator_functions (ms : List CheckedModule)
    (bf : List (FunctionAccessKey × TypedFunction))
    (bd : List (DataTypeKey × TypedDataType))
    (mt : List (String × Nat)) (tr : Bool) :
    (new_generator ms bf bd mt tr).functions = ms.foldl collectFns (imFromList bf) := rfl

theorem new_generator_data_types (ms : List CheckedModule)
    (bf : List (FunctionAccessKey × TypedFunction))
    (bd : List (DataTypeKey × TypedDataType))
    (mt : List (String × Nat)) (tr : Bool) :
    (new_generator ms bf bd mt tr).data_types = ms.foldl collectDts (imFromList bd) := rfl

/-- C5: in the global symbol table built by `new_generator`, the entry found
under any qualified key is the last user definition carrying exactly that key
when one exists, and otherwise the builtin entry under that key — a user
definition replaces a builtin precisely when the qualified keys coincide, and
no error is ever raised (the builder is total). In particular, with a builtin
function keyed `(prelude, foo)` and a user module `M ≠ prelude` also defining
`foo`, both entries remain in the table under their distinct keys. -/
theorem new_generator_shadowing :
    (∀ (ms : List CheckedModule) (bf : List (FunctionAccessKey × TypedFunction))
        (bd : List (DataTypeKey × TypedDataType)) (mt : List (String × Nat)) (tr : Bool)
        (k : FunctionAccessKey),
      imLookup (new_generator ms bf bd mt tr).functions k =
        (userFnValue ms k).or (imLookup (imFromList bf) k)) ∧
    (∀ (ms : List CheckedModule) (bf : List (FunctionAccessKey × TypedFunction))
        (bd : List (DataTypeKey × TypedDataType)) (mt : List (String × Nat)) (tr : Bool)
        (k : DataTypeKey),
      imLookup (new_generator ms bf bd mt tr).data_types k =
        (userDtValue ms k).or (imLookup (imFromList bd) k)) ∧
    (imLookup (new_generator [⟨"M", "", .Lib, "pkg", [.Fn ⟨"foo", 2⟩]⟩]
        [(⟨"prelude", "foo"⟩, ⟨"foo", 1⟩)] [] [] false).functions
        ⟨"prelude", "foo"⟩ = some ⟨"foo", 1⟩ ∧
      imLookup (new_generator [⟨"M", "", .Lib, "pkg", [.Fn ⟨"foo", 2⟩]⟩]
        [(⟨"prelude", "foo"⟩, ⟨"foo", 1⟩)] [] [] false).functions
        ⟨"M", "foo"⟩ = some ⟨"foo", 2⟩) := by
  refine ⟨?_, ?_, ?_, ?_⟩
  · intro ms bf bd mt tr k
    rw [new_generator_functions, foldl_collectFns_lookup]
    rfl
  · intro ms bf bd mt tr k
    rw [new_generator_data_types, foldl_collectDts_lookup]
    rfl
  · rfl
  · rfl

theorem lastMatch_isSome {K V : Type} [DecidableEq K] (l : List (K × V)) (k : K) :
    (lastMatch l k).isSome = true ↔ ∃ v, (k, v) ∈ l := by
  constructor
  · intro h
    have hne : l.filter (fun p => decide (p.1 = k)) ≠ [] := by
      intro hnil
      unfold lastMatch at h
      rw [hnil] at h
      simp at h
    obtain ⟨⟨k1, v⟩, hp⟩ := List.exists_mem_of_ne_nil _ hne
    obtain ⟨hl, hq⟩ := List.mem_filter.mp hp
    have hk : k1 = k := by simpa using hq
    exact ⟨v, hk ▸ hl⟩
  · rintro ⟨v, hv⟩
    unfold lastMatch
    have hmem : (k, v) ∈ l.filter (fun p => decide (p.1 = k)) :=
      List.mem_filter.mpr ⟨hv, by simp⟩
    have hne : l.filter (fun p => decide (p.1 = k)) ≠ [] := by
      intro hnil
      rw [hnil] at hmem
      exact absurd hmem (List.not_mem_nil _)
    cases hgl : (l.filter (fun p => decide (p.1 = k))).getLast? with
    | none => exact absurd (List.getLast?_eq_none_iff.mp hgl) hne
    | some p => rfl

theorem mem_fnEntriesOf (m : CheckedModule) (p : FunctionAccessKey × TypedFunction) :
    p ∈ fnEntriesOf m ↔
      ∃ f : TypedFunction, Definition.Fn f ∈ m.ast ∧
        p = ((⟨m.name, f.name⟩ : FunctionAccessKey), f) := by
  unfold fnEntriesOf
  rw [List.mem_filterMap]
  constructor
  · rintro ⟨d, hd, hmatch⟩
    cases d with
    | Fn f => exact ⟨f, hd, (Option.some.inj hmatch).symm⟩
    | DataType dt => exact Option.noConfusion hmatch
    | TypeAlias t => exact Option.noConfusion hmatch
    | ModuleConstant c => exact Option.noConfusion hmatch
    | Test t => exact Option.noConfusion hmatch
    | Validator v => exact Option.noConfusion hmatch
    | Use u => exact Option.noConfusion hmatch
  · rintro ⟨f, hf, rfl⟩
    exact ⟨.Fn f, hf, rfl⟩

theorem mem_dtEntriesOf (m : CheckedModule) (p : DataTypeKey × TypedDataType) :
    p ∈ dtEntriesOf m ↔
      ∃ dt : TypedDataType, Definition.DataType dt ∈ m.ast ∧
        p = ((⟨m.name, dt.name⟩ : DataTypeKey), dt) := by
  unfold dtEntriesOf
  rw [List.mem_filterMap]
  constructor
  · rintro ⟨d, hd, hmatch⟩
    cases d with
    | DataType dt => exact ⟨dt, hd, (Option.some.inj hmatch).symm⟩
    | Fn f => exact Option.noConfusion hmatch
    | TypeAlias t => exact Option.noConfusion hmatch
    | ModuleConstant c => exact Option.noConfusion hmatch
    | Test t => exact Option.noConfusion hmatch
    | Validator v => exact Option.noConfusion hmatch
    | Use u => exact Option.noConfusion hmatch
  · rintro ⟨dt, hdt, rfl⟩
    exact ⟨.DataType dt, hdt, rfl⟩

theorem userFnValue_isSome (ms : List CheckedModule) (k : FunctionAccessKey) :
    (userFnValue ms k).isSome = true ↔
      ∃ m ∈ ms, ∃ f : TypedFunction, Definition.Fn f ∈ m.ast ∧
        k = ⟨m.name, f.name⟩ := by
  rw [userFnValue, lastMatch_isSome]
  constructor
  · rintro ⟨v, hv⟩
    rw [userFnEntries] at hv
    obtain ⟨m, hm, hmem⟩ := List.mem_flatMap.mp hv
    obtain ⟨f, hf, hpair⟩ := (mem_fnEntriesOf m _).mp hmem
    exact ⟨m, hm, f, hf, congrArg Prod.fst hpair⟩
  · rintro ⟨m, hm, f, hf, rfl⟩
    refine ⟨f, ?_⟩
    rw [userFnEntries]
    exact List.mem_flatMap.mpr ⟨m, hm, (mem_fnEntriesOf m _).mpr ⟨f, hf, rfl⟩⟩

theorem userDtValue_isSome (ms : List CheckedModule) (k : DataTypeKey) :
    (userDtValue ms k).isSome = true ↔
      ∃ m ∈ ms, ∃ dt : TypedDataType, Definition.DataType dt ∈ m.ast ∧
        k = ⟨m.name, dt.name⟩ := by
  rw [userDtValue, lastMatch_isSome]
  constructor
  · rintro ⟨v, hv⟩
    rw [userDtEntries] at hv
    obtain ⟨m, hm, hmem⟩ := List.mem_flatMap.mp hv
    obtain ⟨dt, hdt, hpair⟩ := (mem_dtEntriesOf m _).mp hmem
    exact ⟨m, hm, dt, hdt, congrArg Prod.fst hpair⟩
  · rintro ⟨m, hm, dt, hdt, rfl⟩
    refine ⟨dt, ?_⟩
    rw [userDtEntries]
    exact List.mem_flatMap.mpr ⟨m, hm, (mem_dtEntriesOf m _).mpr ⟨dt, hdt, rfl⟩⟩

theorem or_isSome {α : Type} (a b : Option α) :
    (a.or b).isSome = true ↔ (a.isSome = true ∨ b.isSome = true) := by
  cases a <;> simp

theorem foldl_collect_filter {β : Type} (step : β → Definition → β)
    (hstep : ∀ (a : β) (d : Definition), isCollectedDef d = false → step a d = a) :
    ∀ (defs : List Definition) (acc : β),
      (defs.filter isCollectedDef).foldl step acc = defs.foldl step acc := by
  intro defs
  induction defs with
  | nil => intro acc; rfl
  | cons d rest ih =>
    intro acc
    rw [List.filter_cons]
    by_cases h : isCollectedDef d = true
    · rw [if_pos h, List.foldl_cons, List.foldl_cons]
      exact ih _
    · rw [if_neg h, List.foldl_cons, hstep acc d (by simpa using h)]
      exact ih acc

theorem collectFns_keepCollected (acc : List (FunctionAccessKey × TypedFunction))
    (m : CheckedModule) :
    collectFns acc (keepCollected m) = collectFns acc m := by
  unfold collectFns keepCollected
  exact foldl_collect_filter _
    (by
      intro a d h
      cases d <;> first | rfl | simp [isCollectedDef] at h) m.ast acc

theorem collectDts_keepCollected (acc : List (DataTypeKey × TypedDataType))
    (m : CheckedModule) :
    collectDts acc (keepCollected m) = collectDts acc m := by
  unfold collectDts keepCollected
  exact foldl_collect_filter _
    (by
      intro a d h
      cases d <;> first | rfl | simp [isCollectedDef] at h) m.ast acc

theorem foldl_collectFns_keep : ∀ (ms : List CheckedModule)
    (acc : List (FunctionAccessKey × TypedFunction)),
    (ms.map keepCollected).foldl collectFns acc = ms.foldl collectFns acc := by
  intro ms
  induction ms with
  | nil => intro acc; rfl
  | cons m rest ih =>
    intro acc
    rw [List.map_cons, List.foldl_cons, List.foldl_cons, collectFns_keepCollected]
    exact ih _

theorem foldl_collectDts_keep : ∀ (ms : List CheckedModule)
    (acc : List (DataTypeKey × TypedDataType)),
    (ms.map keepCollected).foldl collectDts acc = ms.foldl collectDts acc := by
  intro ms
  induction ms with
  | nil => intro acc; rfl
  | cons m rest ih =>
    intro acc
    rw [List.map_cons, List.foldl_cons, List.foldl_cons, collectDts_keepCollected]
    exact ih _

/-! ## Validator enumeration (claim C6) -/

theorem tripleLe_total (a b : String × String × String) : tripleLe a b ∨ tripleLe b a := by
  unfold tripleLe
  rcases lt_trichotomy a.1 b.1 with h | h | h
  · exact Or.inl (Or.inl h)
  · rcases lt_trichotomy a.2.1 b.2.1 with h2 | h2 | h2
    · exact Or.inl (Or.inr ⟨h, Or.inl h2⟩)
    · rcases le_total a.2.2 b.2.2 with h3 | h3
      · exact Or.inl (Or.inr ⟨h, Or.inr ⟨h2, h3⟩⟩)
      · exact Or.inr (Or.inr ⟨h.symm, Or.inr ⟨h2.symm, h3⟩⟩)
    · exact Or.inr (Or.inr ⟨h.symm, Or.inl h2⟩)
  · exact Or.inr (Or.inl h)

theorem tripleLe_trans (a b c : String × String × String) :
    tripleLe a b → tripleLe b c → tripleLe a c := by
  unfold tripleLe
  rintro (h1 | ⟨h1, h1'⟩) (h2 | ⟨h2, h2'⟩)
  · exact Or.inl (h1.trans h2)
  · exact Or.inl (lt_of_lt_of_eq h1 h2)
  · exact Or.inl (lt_of_eq_of_lt h1 h2)
  · refine Or.inr ⟨h1.trans h2, ?_⟩
    rcases h1' with g1 | ⟨g1, g1'⟩ <;> rcases h2' with g2 | ⟨g2, g2'⟩
    · exact Or.inl (g1.trans g2)
    · exact Or.inl (lt_of_lt_of_eq g1 g2)
    · exact Or.inl (lt_of_eq_of_lt g1 g2)
    · exact Or.inr ⟨g1.trans g2, g1'.trans g2'⟩

theorem tripleLe_antisymm (a b : String × String × String) :
    tripleLe a b → tripleLe b a → a = b := by
  obtain ⟨a1, a2, a3⟩ := a
  obtain ⟨b1, b2, b3⟩ := b
  intro hab hba
  have e1 : a1 = b1 := by
    rcases hab with h | ⟨h, _⟩
    · rcases hba with h' | ⟨h', _⟩
      · exact absurd h' (lt_asymm h)
      · exact h'.symm
    · exact h
  subst e1
  have hab2 : a2 < b2 ∨ (a2 = b2 ∧ a3 ≤ b3) := by
    rcases hab with h | ⟨_, h⟩
    · exact absurd h (lt_irrefl _)
    · exact h
  have hba2 : b2 < a2 ∨ (b2 = a2 ∧ b3 ≤ a3) := by
    rcases hba with h | ⟨_, h⟩
    · exact absurd h (lt_irrefl _)
    · exact h
  have e2 : a2 = b2 := by
    rcases hab2 with h | ⟨h, _⟩
    · rcases hba2 with h' | ⟨h', _⟩
      · exact absurd h' (lt_asymm h)
      · exact h'.symm
    · exact h
  subst e2
  have e3 : a3 = b3 := by
    rcases hab2 with h | ⟨_, h⟩
    · exact absurd h (lt_irrefl _)
    · rcases hba2 with h' | ⟨_, h'⟩
      · exact absurd h' (lt_irrefl _)
      · exact le_antisymm h h'
  rw [e3]

instance : IsTotal (CheckedModule × TypedValidator) vle :=
  ⟨fun a b => tripleLe_total (vkey a) (vkey b)⟩

instance : IsTrans (CheckedModule × TypedValidator) vle :=
  ⟨fun _ _ _ h1 h2 => tripleLe_trans _ _ _ h1 h2⟩

theorem perm_sorted_unique : ∀ (l1 l2 : List (CheckedModule × TypedValidator)),
    l1.Perm l2 → l1.Sorted vle → l2.Sorted vle → (l1.map vkey).Nodup → l1 = l2 := by
  intro l1
  induction l1 with
  | nil =>
    intro l2 hp _ _ _
    exact (hp.symm.eq_nil).symm
  | cons a t1 ih =>
    intro l2 hp hs1 hs2 hnd
    cases l2 with
    | nil => exact absurd hp.eq_nil (by simp)
    | cons b t2 =>
      have hab : a = b := by
        by_contra hne
        have hbmem : b ∈ a :: t1 := hp.symm.subset (List.mem_cons_self b t2)
        have hamem : a ∈ b :: t2 := hp.subset (List.mem_cons_self a t1)
        have hbt1 : b ∈ t1 := by
          rcases List.mem_cons.mp hbmem with h | h
          · exact absurd h.symm hne
          · exact h
        have hat2 : a ∈ t2 := by
          rcases List.mem_cons.mp hamem with h | h
          · exact absurd h hne
          · exact h
        have h1 : vle a b := List.rel_of_sorted_cons hs1 b hbt1
        have h2 : vle b a := List.rel_of_sorted_cons hs2 a hat2
        have hkey : vkey a = vkey b := tripleLe_antisymm _ _ h1 h2
        have hmem : vkey b ∈ t1.map vkey := List.mem_map_of_mem vkey hbt1
        rw [← hkey] at hmem
        rw [List.map_cons] at hnd
        exact absurd hmem (List.nodup_cons.mp hnd).1
      subst hab
      have hnd2 : (t1.map vkey).Nodup := by
        rw [List.map_cons] at hnd
        exact (List.nodup_cons.mp hnd).2
      rw [ih t2 hp.cons_inv hs1.of_cons hs2.of_cons hnd2]

theorem validatorItems_perm {ms ms' : List CheckedModule} (h : ms.Perm ms') :
    (validatorItems ms).Perm (validatorItems ms') := by
  unfold validatorItems
  exact (h.filter _).flatMap_right _

/-- C6: for every checked-module set whose collected validator entries have
pairwise-distinct (package, module identifier, validator function name)
triples, `validators` yields exactly the validator definitions of the
validator-kind modules (a permutation of the collected items), sorted by the
lexicographic triple, and the output is independent of the map's iteration
order: any permutation of the module list yields the same sequence. -/
theorem validators_sorted_and_order_independent
    (ms ms' : List CheckedModule)
    (hperm : ms.Perm ms')
    (hnd : ((validatorItems ms).map vkey).Nodup) :
    validators ms = validators ms' ∧
    (validators ms).Perm (validatorItems ms) ∧
    (validators ms).Sorted vle := by
  have hs1 : (validators ms).Sorted vle := List.sorted_insertionSort vle _
  have hs2 : (validators ms').Sorted vle := List.sorted_insertionSort vle _
  have hp1 : (validators ms).Perm (validatorItems ms) := List.perm_insertionSort vle _
  have hp2 : (validators ms').Perm (validatorItems ms') := List.perm_insertionSort vle _
  have hip : (validatorItems ms).Perm (validatorItems ms') := validatorItems_perm hperm
  have hpv : (validators ms).Perm (validators ms') := hp1.trans (hip.trans hp2.symm)
  have hnd1 : ((validators ms).map vkey).Nodup := ((hp1.map vkey).nodup_iff).mpr hnd
  exact ⟨perm_sorted_unique _ _ hpv hs1 hs2 hnd1, hp1, hs1⟩

/-- Witness for C6: two validator modules inserted in both orders yield the
same sorted enumeration. -/
theorem validators_sorted_and_order_independent_witness :
    validators [⟨"modA", "", .Validator, "pkg", [.Validator ⟨⟨"v1", 1⟩, none⟩]⟩,
        ⟨"modB", "", .Validator, "pkg", [.Validator ⟨⟨"v2", 2⟩, none⟩]⟩] =
      validators [⟨"modB", "", .Validator, "pkg", [.Validator ⟨⟨"v2", 2⟩, none⟩]⟩,
        ⟨"modA", "", .Validator, "pkg", [.Validator ⟨⟨"v1", 1⟩, none⟩]⟩] ∧
    (validators [⟨"modA", "", .Validator, "pkg", [.Validator ⟨⟨"v1", 1⟩, none⟩]⟩,
        ⟨"modB", "", .Validator, "pkg", [.Validator ⟨⟨"v2", 2⟩, none⟩]⟩]).Perm
      (validatorItems [⟨"modA", "", .Validator, "pkg", [.Validator ⟨⟨"v1", 1⟩, none⟩]⟩,
        ⟨"modB", "", .Validator, "pkg", [.Validator ⟨⟨"v2", 2⟩, none⟩]⟩]) ∧
    (validators [⟨"modA", "", .Validator, "pkg", [.Validator ⟨⟨"v1", 1⟩, none⟩]⟩,
        ⟨"modB", "", .Validator, "pkg", [.Validator ⟨⟨"v2", 2⟩, none⟩]⟩]).Sorted vle :=
  validators_sorted_and_order_independent
    [⟨"modA", "", .Validator, "pkg", [.Validator ⟨⟨"v1", 1⟩, none⟩]⟩,
      ⟨"modB", "", .Validator, "pkg", [.Validator ⟨⟨"v2", 2⟩, none⟩]⟩]
    [⟨"modB", "", .Validator, "pkg", [.Validator ⟨⟨"v2", 2⟩, none⟩]⟩,
      ⟨"modA", "", .Validator, "pkg", [.Validator ⟨⟨"v1", 1⟩, none⟩]⟩]
    (List.Perm.swap _ _ _) (by decide)

/-- C9: `new_generator` collects into its global function and data-type maps
exactly the `Fn` and `DataType` definitions of the checked modules, keyed by
(module identifier, local name). Stripping every definition of another kind
(`TypeAlias`, `ModuleConstant`, `Test`, `Validator`, `Use`) from the modules
leaves both maps unchanged, and a key is present beyond the builtins exactly
when some module defines a matching `Fn` (resp. `DataType`). -/
theorem new_generator_collects_exactly_fns_and_datatypes :
    (∀ (ms : List CheckedModule) (bf : List (FunctionAccessKey × TypedFunction))
        (bd : List (DataTypeKey × TypedDataType)) (mt : List (String × Nat)) (tr : Bool),
      (new_generator (ms.map keepCollected) bf bd mt tr).functions =
        (new_generator ms bf bd mt tr).functions ∧
      (new_generator (ms.map keepCollected) bf bd mt tr).data_types =
        (new_generator ms bf bd mt tr).data_types) ∧
    (∀ (ms : List CheckedModule) (bf : List (FunctionAccessKey × TypedFunction))
        (bd : List (DataTypeKey × TypedDataType)) (mt : List (String × Nat)) (tr : Bool)
        (k : FunctionAccessKey),
      (imLookup (new_generator ms bf bd mt tr).functions k).isSome = true ↔
        ((imLookup (imFromList bf) k).isSome = true ∨
          ∃ m ∈ ms, ∃ f : TypedFunction, Definition.Fn f ∈ m.ast ∧
            k = ⟨m.name, f.name⟩)) ∧
    (∀ (ms : List CheckedModule) (bf : List (FunctionAccessKey × TypedFunction))
        (bd : List (DataTypeKey × TypedDataType)) (mt : List (String × Nat)) (tr : Bool)
        (k : DataTypeKey),
      (imLookup (new_generator ms bf bd mt tr).data_types k).isSome = true ↔
        ((imLookup (imFromList bd) k).isSome = true ∨
          ∃ m ∈ ms, ∃ dt : TypedDataType, Definition.DataType dt ∈ m.ast ∧
            k = ⟨m.name, dt.name⟩)) := by
  refine ⟨?_, ?_, ?_⟩
  · intro ms bf bd mt tr
    constructor
    · rw [new_generator_functions, new_generator_functions, foldl_collectFns_keep]
    · rw [new_generator_data_types, new_generator_data_types, foldl_collectDts_keep]
  · intro ms bf bd mt tr k
    rw [new_generator_functions, foldl_collectFns_lookup, or_isSome]
    have h := userFnValue_isSome ms k
    rw [userFnValue] at h
    rw [h]
    exact or_comm
  · intro ms bf bd mt tr k
    rw [new_generator_data_types, foldl_collectDts_lookup, or_isSome]
    have h := userDtValue_isSome ms k
    rw [userDtValue] at h
    rw [h]
    exact or_comm

/-! ## Duplicate edges (claim C8) -/

theorem listRel_refl {α : Type} (l : List α) : listRel l l := Or.inl rfl

theorem listRel_mem {α : Type} {l l' : List α} (h : listRel l l') (a : α) :
    a ∈ l' ↔ a ∈ l := by
  rcases h with rfl | ⟨pre, x, post, rfl, rfl⟩
  · exact Iff.rfl
  · simp only [List.mem_append, List.mem_cons]
    tauto

theorem listRel_reverse {α : Type} {l l' : List α} (h : listRel l l') :
    listRel l.reverse l'.reverse := by
  rcases h with rfl | ⟨pre, x, post, rfl, rfl⟩
  · exact Or.inl rfl
  · exact Or.inr ⟨post.reverse, x, pre.reverse, by simp, by simp⟩

theorem listRel_cons {α : Type} {s : α} {rest ns' : List α}
    (h : listRel (s :: rest) ns') :
    (∃ rest', ns' = s :: rest' ∧ listRel rest rest') ∨ ns' = s :: s :: rest := by
  rcases h with rfl | ⟨pre, x, post, hl, hl'⟩
  · exact Or.inl ⟨rest, rfl, listRel_refl rest⟩
  · cases pre with
    | nil =>
      simp only [List.nil_append] at hl hl'
      obtain ⟨rfl, rfl⟩ : s = x ∧ rest = post := by
        have := List.cons.inj hl
        exact ⟨this.1, this.2⟩
      exact Or.inr hl'
    | cons p0 pre2 =>
      simp only [List.cons_append] at hl hl'
      obtain ⟨rfl, hrest⟩ : s = p0 ∧ rest = pre2 ++ x :: post := by
        have := List.cons.inj hl
        exact ⟨this.1, this.2⟩
      exact Or.inl ⟨pre2 ++ x :: x :: post, hl', Or.inr ⟨pre2, x, post, hrest, rfl⟩⟩

theorem succs_listRel {g g' : DGraph} (h : listRel g.edges g'.edges) (v : Nat) :
    listRel (g.succs v) (g'.succs v) := by
  rcases h with he | ⟨E1, e, E2, h1, h2⟩
  · left
    unfold DGraph.succs
    rw [he]
  · obtain ⟨a, b⟩ := e
    unfold DGraph.succs
    rw [h1, h2]
    by_cases hv : a = v
    · subst hv
      right
      refine ⟨(E1.filter (fun e => e.1 == a)).map (fun e => e.2), b,
        (E2.filter (fun e => e.1 == a)).map (fun e => e.2), ?_, ?_⟩
      · rw [List.filter_append, List.filter_cons]
        rw [if_pos (by simp)]
        simp
      · rw [List.filter_append, List.filter_cons, List.filter_cons]
        rw [if_pos (by simp), if_pos (by simp)]
        simp
    · left
      simp only [List.filter_append, List.filter_cons]
      rw [if_neg (by simp [hv])]

theorem neighbors_listRel {g g' : DGraph} (h : listRel g.edges g'.edges) (v : Nat) :
    listRel (g.neighbors v) (g'.neighbors v) :=
  listRel_reverse (succs_listRel h v)

theorem run_fuel_mono (g : DGraph) : ∀ fuel t st r, run g fuel t st = some r →
    ∀ fuel2, fuel ≤ fuel2 → run g fuel2 t st = some r := by
  intro fuel
  induction fuel with
  | zero => intro t st r h; exact absurd h (by simp [run])
  | succ fuel ih =>
    intro t st r h fuel2 hle
    obtain ⟨f2, rfl⟩ : ∃ f2, fuel2 = f2 + 1 := ⟨fuel2 - 1, by omega⟩
    have hle2 : fuel ≤ f2 := by omega
    cases t with
    | visit v =>
      simp only [run] at h ⊢
      by_cases hself : v ∈ g.succs v
      · rw [if_pos hself] at h ⊢
        exact h
      · rw [if_neg hself] at h ⊢
        cases hrun : run g fuel (.fold (g.succs v))
            { st with discovered := v :: st.discovered } with
        | none => rw [hrun] at h; simp at h
        | some r1 =>
          rw [hrun] at h
          rw [ih _ _ _ hrun f2 hle2]
          exact h
    | fold l =>
      cases l with
      | nil => simp only [run] at h ⊢; exact h
      | cons s rest =>
        simp only [run] at h ⊢
        by_cases hsd : s ∈ st.discovered
        · rw [if_pos hsd] at h ⊢
          exact ih _ _ _ h f2 hle2
        · rw [if_neg hsd] at h ⊢
          cases hrun : run g fuel (.visit s) st with
          | none => rw [hrun] at h; simp at h
          | some r1 =>
            rw [hrun] at h
            rw [ih _ _ _ hrun f2 hle2]
            cases r1 with
            | error e => exact h
            | ok st2 =>
              simp only at h ⊢
              exact ih _ _ _ h f2 hle2

theorem fcRun_fuel_mono (g : DGraph) (origin : Nat) : ∀ fuel ct path seen r,
    findCycleRun g origin fuel ct path seen = some r →
    ∀ fuel2, fuel ≤ fuel2 → findCycleRun g origin fuel2 ct path seen = some r := by
  intro fuel
  induction fuel with
  | zero => intro ct path seen r h; exact absurd h (by simp [findCycleRun])
  | succ fuel ih =>
    intro ct path seen r h fuel2 hle
    obtain ⟨f2, rfl⟩ : ∃ f2, fuel2 = f2 + 1 := ⟨fuel2 - 1, by omega⟩
    have hle2 : fuel ≤ f2 := by omega
    cases ct with
    | start parent =>
      simp only [findCycleRun] at h ⊢
      exact ih _ _ _ _ h f2 hle2
    | scan ns =>
      cases ns with
      | nil => simp only [findCycleRun] at h ⊢; exact h
      | cons node rest =>
        simp only [findCycleRun] at h ⊢
        by_cases ho : node = origin
        · rw [if_pos ho] at h ⊢
          exact h
        · rw [if_neg ho] at h ⊢
          by_cases hs : node ∈ seen
          · rw [if_pos hs] at h ⊢
            exact ih _ _ _ _ h f2 hle2
          · rw [if_neg hs] at h ⊢
            cases hrun : findCycleRun g origin fuel (.start node) path seen with
            | none => rw [hrun] at h; simp at h
            | some r1 =>
              rw [hrun] at h
              rw [ih _ _ _ _ hrun f2 hle2]
              obtain ⟨b, p1, s1⟩ := r1
              cases b with
              | true => exact h
              | false =>
                simp only at h ⊢
                exact ih _ _ _ _ h f2 hle2

theorem run_step_visit (g : DGraph) (fuel v : Nat) (st : TState) :
    run g (fuel + 1) (.visit v) st =
      (if v ∈ g.succs v then some (.error v)
       else
         match run g fuel (.fold (g.succs v)) { st with discovered := v :: st.discovered } with
         | none => none
         | some (.error e) => some (.error e)
         | some (.ok st2) =>
           if ∀ s ∈ g.succs v, s ∈ v :: st2.finished then
             some (.ok ⟨st2.discovered, v :: st2.finished, st2.order ++ [v]⟩)
           else some (.error v)) := rfl

theorem run_step_fold_nil (g : DGraph) (fuel : Nat) (st : TState) :
    run g (fuel + 1) (.fold []) st = some (.ok st) := rfl

theorem run_step_fold_cons (g : DGraph) (fuel s : Nat) (rest : List Nat) (st : TState) :
    run g (fuel + 1) (.fold (s :: rest)) st =
      (if s ∈ st.discovered then run g fuel (.fold rest) st
       else
         match run g fuel (.visit s) st with
         | none => none
         | some (.error e) => some (.error e)
         | some (.ok st2) => run g fuel (.fold rest) st2) := rfl

theorem run_dup_sim (g g' : DGraph) (hsucc : ∀ v, listRel (g.succs v) (g'.succs v)) :
    ∀ fuel,
    (∀ v st r, run g fuel (.visit v) st = some r →
      ∃ f, run g' f (.visit v) st = some r) ∧
    (∀ l l' st r, listRel l l' → run g fuel (.fold l) st = some r →
      ∃ f, run g' f (.fold l') st = some r) := by
  intro fuel
  induction fuel with
  | zero =>
    constructor
    · intro v st r h; exact absurd h (by simp [run])
    · intro l l' st r _ h; exact absurd h (by simp [run])
  | succ fuel ih =>
    obtain ⟨ihv, ihf⟩ := ih
    constructor
    · intro v st r h
      simp only [run] at h
      have hmem : ∀ a, a ∈ g'.succs v ↔ a ∈ g.succs v := listRel_mem (hsucc v)
      by_cases hself : v ∈ g.succs v
      · rw [if_pos hself] at h
        refine ⟨0 + 1, ?_⟩
        rw [run_step_visit g' 0 v st, if_pos ((hmem v).mpr hself)]
        exact h
      · rw [if_neg hself] at h
        cases hrun : run g fuel (.fold (g.succs v))
            { st with discovered := v :: st.discovered } with
        | none => rw [hrun] at h; simp at h
        | some r1 =>
          rw [hrun] at h
          obtain ⟨f1, hf1⟩ := ihf (g.succs v) (g'.succs v) _ r1 (hsucc v) hrun
          refine ⟨f1 + 1, ?_⟩
          rw [run_step_visit g' f1 v st,
            if_neg (fun hc => hself ((hmem v).mp hc)), hf1]
          cases r1 with
          | error e => exact h
          | ok st2 =>
            simp only at h ⊢
            by_cases hfin : ∀ s ∈ g.succs v, s ∈ v :: st2.finished
            · have hfin2 : ∀ s ∈ g'.succs v, s ∈ v :: st2.finished :=
                fun s hs => hfin s ((hmem s).mp hs)
              rw [if_pos (by simpa using hfin)] at h
              rw [if_pos hfin2]
              exact h
            · have hfin2 : ¬ ∀ s ∈ g'.succs v, s ∈ v :: st2.finished :=
                fun hc => hfin (fun s hs => hc s ((hmem s).mpr hs))
              rw [if_neg (by simpa using hfin)] at h
              rw [if_neg hfin2]
              exact h
    · intro l l' st r hrel h
      cases l with
      | nil =>
        have hl' : l' = [] := by
          rcases hrel with rfl | ⟨pre, x, post, hl, _⟩
          · rfl
          · exact absurd hl (by simp)
        subst hl'
        simp only [run] at h
        exact ⟨0 + 1, by rw [run_step_fold_nil]; exact h⟩
      | cons s rest =>
        simp only [run] at h
        rcases listRel_cons hrel with ⟨rest', hns, hrel'⟩ | hdup
        · subst hns
          by_cases hsd : s ∈ st.discovered
          · rw [if_pos hsd] at h
            obtain ⟨f1, hf1⟩ := ihf rest rest' st r hrel' h
            exact ⟨f1 + 1, by rw [run_step_fold_cons, if_pos hsd]; exact hf1⟩
          · rw [if_neg hsd] at h
            cases hrun : run g fuel (.visit s) st with
            | none => rw [hrun] at h; simp at h
            | some r1 =>
              rw [hrun] at h
              obtain ⟨f1, hf1⟩ := ihv s st r1 hrun
              cases r1 with
              | error e =>
                refine ⟨f1 + 1, ?_⟩
                rw [run_step_fold_cons, if_neg hsd, hf1]
                exact h
              | ok st2 =>
                simp only at h
                obtain ⟨f2, hf2⟩ := ihf rest rest' st2 r hrel' h
                have hF1 : f1 ≤ max f1 f2 := le_max_left _ _
                have hF2 : f2 ≤ max f1 f2 := le_max_right _ _
                refine ⟨max f1 f2 + 1, ?_⟩
                rw [run_step_fold_cons, if_neg hsd,
                  run_fuel_mono g' _ _ _ _ hf1 (max f1 f2) hF1]
                simp only
                exact run_fuel_mono g' _ _ _ _ hf2 (max f1 f2) hF2
        · subst hdup
          by_cases hsd : s ∈ st.discovered
          · rw [if_pos hsd] at h
            obtain ⟨f1, hf1⟩ := ihf rest rest st r (listRel_refl rest) h
            refine ⟨f1 + 1 + 1, ?_⟩
            rw [run_step_fold_cons g' (f1 + 1) s (s :: rest) st, if_pos hsd,
              run_step_fold_cons g' f1 s rest st, if_pos hsd]
            exact hf1
          · rw [if_neg hsd] at h
            cases hrun : run g fuel (.visit s) st with
            | none => rw [hrun] at h; simp at h
            | some r1 =>
              rw [hrun] at h
              obtain ⟨f1, hf1⟩ := ihv s st r1 hrun
              cases r1 with
              | error e =>
                refine ⟨f1 + 1, ?_⟩
                rw [run_step_fold_cons, if_neg hsd, hf1]
                exact h
              | ok st2 =>
                simp only at h
                have hs2 : s ∈ st2.discovered :=
                  ((run_ok_main g fuel (.visit s) st st2 hrun hsd).2.2.2.2.2).2
                obtain ⟨f2, hf2⟩ := ihf rest rest st2 r (listRel_refl rest) h
                have hF1 : f1 ≤ max f1 f2 + 1 := by
                  have := le_max_left f1 f2; omega
                have hF2 : f2 ≤ max f1 f2 := le_max_right _ _
                refine ⟨max f1 f2 + 1 + 1, ?_⟩
                rw [run_step_fold_cons g' (max f1 f2 + 1) s (s :: rest) st,
                  if_neg hsd,
                  run_fuel_mono g' _ _ _ _ hf1 (max f1 f2 + 1) hF1]
                simp only
                rw [run_step_fold_cons g' (max f1 f2) s rest st2, if_pos hs2]
                exact run_fuel_mono g' _ _ _ _ hf2 (max f1 f2) hF2

theorem undiscL_fuel_le (g : DGraph) (disc : List Nat) :
    undiscL g.numNodes disc * (g.edges.length + 2) ≤ topoFuel g := by
  have hu : undiscL g.numNodes disc ≤ g.numNodes := by
    have := List.length_filter_le (fun v => decide (v ∉ disc)) (List.range g.numNodes)
    simpa [undiscL] using this
  calc undiscL g.numNodes disc * (g.edges.length + 2)
      ≤ g.numNodes * (g.edges.length + 2) := Nat.mul_le_mul_right _ hu
    _ ≤ (g.numNodes + 1) * (g.edges.length + 2) := Nat.mul_le_mul_right _ (by omega)
    _ = topoFuel g := rfl

theorem run_eq_of_both (g : DGraph) {f1 f2 : Nat} {t : TTask} {st : TState}
    {r1 r2 : Except Nat TState}
    (h1 : run g f1 t st = some r1) (h2 : run g f2 t st = some r2) : r1 = r2 := by
  have ha := run_fuel_mono g f1 t st r1 h1 (max f1 f2) (le_max_left _ _)
  have hb := run_fuel_mono g f2 t st r2 h2 (max f1 f2) (le_max_right _ _)
  rw [ha] at hb
  exact Option.some.inj hb

theorem fcRun_eq_of_both (g : DGraph) (origin : Nat) {f1 f2 : Nat} {ct : CTask}
    {path seen : List Nat} {r1 r2 : Bool × List Nat × List Nat}
    (h1 : findCycleRun g origin f1 ct path seen = some r1)
    (h2 : findCycleRun g origin f2 ct path seen = some r2) : r1 = r2 := by
  have ha := fcRun_fuel_mono g origin f1 ct path seen r1 h1 (max f1 f2) (le_max_left _ _)
  have hb := fcRun_fuel_mono g origin f2 ct path seen r2 h2 (max f1 f2) (le_max_right _ _)
  rw [ha] at hb
  exact Option.some.inj hb

theorem run_visit_topoFuel_some (g : DGraph) (hr : RangeOK g) (v : Nat) (st : TState)
    (hv : v < g.numNodes) (hvd : v ∉ st.discovered) :
    run g (topoFuel g) (.visit v) st ≠ none := by
  apply run_total g hr
  exact ⟨hv, hvd, undiscL_fuel_le g st.discovered⟩

theorem fcRun_topoFuel_some (g : DGraph) (hr : RangeOK g) (origin p : Nat)
    (hp : p < g.numNodes) :
    findCycleRun g origin (topoFuel g) (.start p) [] [] ≠ none := by
  apply fcRun_total g hr origin
  exact ⟨hp, by simp, undiscL_fuel_le g []⟩

theorem topoLoop_dup (g g' : DGraph) (hr' : RangeOK g')
    (hnum : g'.numNodes = g.numNodes)
    (hsucc : ∀ v, listRel (g.succs v) (g'.succs v)) :
    ∀ l st r, (∀ v ∈ l, v < g.numNodes) → topoLoop g l st = some r →
      topoLoop g' l st = some r := by
  intro l
  induction l with
  | nil =>
    intro st r _ h
    simp only [topoLoop] at h ⊢
    exact h
  | cons v rest ih =>
    intro st r hrange h
    simp only [topoLoop] at h ⊢
    by_cases hvd : v ∈ st.discovered
    · rw [if_pos hvd] at h ⊢
      exact ih st r (fun x hx => hrange x (by simp [hx])) h
    · rw [if_neg hvd] at h ⊢
      cases hrun : run g (topoFuel g) (.visit v) st with
      | none => rw [hrun] at h; simp at h
      | some r1 =>
        rw [hrun] at h
        obtain ⟨f1, hf1⟩ := ((run_dup_sim g g' hsucc (topoFuel g)).1) v st r1 hrun
        have hv' : v < g'.numNodes := hnum ▸ hrange v (by simp)
        cases hrun' : run g' (topoFuel g') (.visit v) st with
        | none => exact absurd hrun' (run_visit_topoFuel_some g' hr' v st hv' hvd)
        | some r1' =>
          have he : r1' = r1 := run_eq_of_both g' hrun' hf1
          subst he
          cases r1' with
          | error e => exact h
          | ok st2 =>
            simp only at h ⊢
            exact ih st2 r (fun x hx => hrange x (by simp [hx])) h

theorem toposort_dup (g g' : DGraph) (hr : RangeOK g) (hr' : RangeOK g')
    (hnum : g'.numNodes = g.numNodes) (hedges : listRel g.edges g'.edges) :
    toposort g' = toposort g := by
  have hsucc := fun v => succs_listRel hedges v
  unfold toposort
  rw [hnum]
  cases hloop : topoLoop g (List.range g.numNodes) ⟨[], [], []⟩ with
  | none =>
    exact absurd hloop (topoLoop_total g hr _ _ (fun v hv => List.mem_range.mp hv))
  | some r =>
    rw [topoLoop_dup g g' hr' hnum hsucc _ _ _
      (fun v hv => List.mem_range.mp hv) hloop]

theorem fc_step_start (g : DGraph) (origin fuel p : Nat) (path seen : List Nat) :
    findCycleRun g origin (fuel + 1) (.start p) path seen =
      findCycleRun g origin fuel (.scan (g.neighbors p)) path (p :: seen) := rfl

theorem fc_step_scan_nil (g : DGraph) (origin fuel : Nat) (path seen : List Nat) :
    findCycleRun g origin (fuel + 1) (.scan []) path seen =
      some (false, path, seen) := rfl

theorem fc_step_scan_cons (g : DGraph) (origin fuel node : Nat) (rest path seen : List Nat) :
    findCycleRun g origin (fuel + 1) (.scan (node :: rest)) path seen =
      (if node = origin then some (true, path ++ [node], seen)
       else if node ∈ seen then findCycleRun g origin fuel (.scan rest) path seen
       else
         match findCycleRun g origin fuel (.start node) path seen with
         | none => none
         | some (true, path1, seen1) => some (true, path1 ++ [node], seen1)
         | some (false, path1, seen1) =>
             findCycleRun g origin fuel (.scan rest) path1 seen1) := rfl

theorem fcRun_dup_sim (g g' : DGraph) (origin : Nat)
    (hneigh : ∀ v, listRel (g.neighbors v) (g'.neighbors v)) :
    ∀ fuel,
    (∀ p path seen r, findCycleRun g origin fuel (.start p) path seen = some r →
      ∃ f, findCycleRun g' origin f (.start p) path seen = some r) ∧
    (∀ ns ns' path seen r, listRel ns ns' →
      findCycleRun g origin fuel (.scan ns) path seen = some r →
      ∃ f, findCycleRun g' origin f (.scan ns') path seen = some r) := by
  intro fuel
  induction fuel with
  | zero =>
    constructor
    · intro p path seen r h; exact absurd h (by simp [findCycleRun])
    · intro ns ns' path seen r _ h; exact absurd h (by simp [findCycleRun])
  | succ fuel ih =>
    obtain ⟨ihs, ihn⟩ := ih
    constructor
    · intro p path seen r h
      simp only [findCycleRun] at h
      obtain ⟨f1, hf1⟩ := ihn (g.neighbors p) (g'.neighbors p) path (p :: seen) r
        (hneigh p) h
      exact ⟨f1 + 1, by rw [fc_step_start]; exact hf1⟩
    · intro ns ns' path seen r hrel h
      cases ns with
      | nil =>
        have hl' : ns' = [] := by
          rcases hrel with rfl | ⟨pre, x, post, hl, _⟩
          · rfl
          · exact absurd hl (by simp)
        subst hl'
        simp only [findCycleRun] at h
        exact ⟨0 + 1, by rw [fc_step_scan_nil]; exact h⟩
      | cons node rest =>
        simp only [findCycleRun] at h
        rcases listRel_cons hrel with ⟨rest', hns, hrel'⟩ | hdup
        · subst hns
          by_cases ho : node = origin
          · rw [if_pos ho] at h
            exact ⟨0 + 1, by rw [fc_step_scan_cons, if_pos ho]; exact h⟩
          · rw [if_neg ho] at h
            by_cases hs : node ∈ seen
            · rw [if_pos hs] at h
              obtain ⟨f1, hf1⟩ := ihn rest rest' path seen r hrel' h
              exact ⟨f1 + 1, by
                rw [fc_step_scan_cons, if_neg ho, if_pos hs]; exact hf1⟩
            · rw [if_neg hs] at h
              cases hrun : findCycleRun g origin fuel (.start node) path seen with
              | none => rw [hrun] at h; simp at h
              | some r1 =>
                rw [hrun] at h
                obtain ⟨f1, hf1⟩ := ihs node path seen r1 hrun
                obtain ⟨b, p1, s1⟩ := r1
                cases b with
                | true =>
                  refine ⟨f1 + 1, ?_⟩
                  rw [fc_step_scan_cons, if_neg ho, if_neg hs, hf1]
                  exact h
                | false =>
                  simp only at h
                  obtain ⟨f2, hf2⟩ := ihn rest rest' p1 s1 r hrel' h
                  have hF1 : f1 ≤ max f1 f2 := le_max_left _ _
                  have hF2 : f2 ≤ max f1 f2 := le_max_right _ _
                  refine ⟨max f1 f2 + 1, ?_⟩
                  rw [fc_step_scan_cons, if_neg ho, if_neg hs,
                    fcRun_fuel_mono g' origin _ _ _ _ _ hf1 (max f1 f2) hF1]
                  simp only
                  exact fcRun_fuel_mono g' origin _ _ _ _ _ hf2 (max f1 f2) hF2
        · subst hdup
          by_cases ho : node = origin
          · rw [if_pos ho] at h
            exact ⟨0 + 1, by rw [fc_step_scan_cons, if_pos ho]; exact h⟩
          · rw [if_neg ho] at h
            by_cases hs : node ∈ seen
            · rw [if_pos hs] at h
              obtain ⟨f1, hf1⟩ := ihn rest rest path seen r (listRel_refl rest) h
              refine ⟨f1 + 1 + 1, ?_⟩
              rw [fc_step_scan_cons g' origin (f1 + 1) node (node :: rest) path seen,
                if_neg ho, if_pos hs,
                fc_step_scan_cons g' origin f1 node rest path seen,
                if_neg ho, if_pos hs]
              exact hf1
            · rw [if_neg hs] at h
              cases hrun : findCycleRun g origin fuel (.start node) path seen with
              | none => rw [hrun] at h; simp at h
              | some r1 =>
                rw [hrun] at h
                obtain ⟨f1, hf1⟩ := ihs node path seen r1 hrun
                obtain ⟨b, p1, s1⟩ := r1
                cases b with
                | true =>
                  refine ⟨f1 + 1, ?_⟩
                  rw [fc_step_scan_cons, if_neg ho, if_neg hs, hf1]
                  exact h
                | false =>
                  simp only at h
                  have hnode : node ∈ s1 :=
                    (fcRun_false g origin fuel (.start node) path seen p1 s1 hrun).2.2.1
                  obtain ⟨f2, hf2⟩ := ihn rest rest p1 s1 r (listRel_refl rest) h
                  have hF1 : f1 ≤ max f1 f2 + 1 := by
                    have := le_max_left f1 f2; omega
                  have hF2 : f2 ≤ max f1 f2 := le_max_right _ _
                  refine ⟨max f1 f2 + 1 + 1, ?_⟩
                  rw [fc_step_scan_cons g' origin (max f1 f2 + 1) node (node :: rest) path seen,
                    if_neg ho, if_neg hs,
                    fcRun_fuel_mono g' origin _ _ _ _ _ hf1 (max f1 f2 + 1) hF1]
                  simp only
                  rw [fc_step_scan_cons g' origin (max f1 f2) node rest p1 s1,
                    if_neg ho, if_pos hnode]
                  exact fcRun_fuel_mono g' origin _ _ _ _ _ hf2 (max f1 f2) hF2

theorem find_cycle_dup (g g' : DGraph) (hr : RangeOK g) (hr' : RangeOK g')
    (hnum : g'.numNodes = g.numNodes) (hedges : listRel g.edges g'.edges)
    (origin : Nat) (ho : origin < g.numNodes) :
    find_cycle g' origin = find_cycle g origin := by
  have hneigh := fun v => neighbors_listRel hedges v
  unfold find_cycle
  cases hfc : findCycleRun g origin (topoFuel g) (.start origin) [] [] with
  | none => exact absurd hfc (fcRun_topoFuel_some g hr origin origin ho)
  | some r =>
    obtain ⟨f1, hf1⟩ :=
      (fcRun_dup_sim g g' origin hneigh (topoFuel g)).1 origin [] [] r hfc
    cases hfc' : findCycleRun g' origin (topoFuel g') (.start origin) [] [] with
    | none =>
      exact absurd hfc' (fcRun_topoFuel_some g' hr' origin origin (hnum ▸ ho))
    | some r' =>
      rw [fcRun_eq_of_both g' origin hfc' hf1]

theorem listRel_append_left_right {α : Type} (A B : List α) {X X' : List α}
    (h : listRel X X') :
    listRel (A ++ (X ++ B)) (A ++ (X' ++ B)) := by
  rcases h with rfl | ⟨pre, x, post, rfl, rfl⟩
  · exact Or.inl rfl
  · exact Or.inr ⟨A ++ pre, x, post ++ B, by simp, by simp⟩

theorem buildRow_dup (names : List String) (nm : String)
    (dpre dpost : List String) (d : String) :
    listRel (buildRow names (nm, dpre ++ d :: dpost))
      (buildRow names (nm, dpre ++ d :: d :: dpost)) := by
  unfold buildRow
  cases idxOf names nm with
  | none => exact Or.inl rfl
  | some f =>
    simp only
    cases hd : idxOf names d with
    | none =>
      left
      simp only [List.filterMap_append, List.filterMap_cons, hd, Option.map_none']
    | some j =>
      right
      refine ⟨dpre.filterMap (fun dep => (idxOf names dep).map (fun toIdx => (f, toIdx))),
        (f, j),
        dpost.filterMap (fun dep => (idxOf names dep).map (fun toIdx => (f, toIdx))),
        ?_, ?_⟩
      · simp only [List.filterMap_append, List.filterMap_cons, hd, Option.map_some']
      · simp only [List.filterMap_append, List.filterMap_cons, hd, Option.map_some']

theorem buildEdges_dup (L1 L2 : List ParsedModule) (nm : String)
    (dpre dpost : List String) (d : String) :
    listRel
      (buildEdges ((L1 ++ ⟨nm, dpre ++ d :: dpost⟩ :: L2).map ParsedModule.deps_for_graph))
      (buildEdges ((L1 ++ ⟨nm, dpre ++ d :: d :: dpost⟩ :: L2).map ParsedModule.deps_for_graph)) := by
  have hnames : ((L1 ++ ⟨nm, dpre ++ d :: d :: dpost⟩ :: L2).map ParsedModule.deps_for_graph).map Prod.fst =
      ((L1 ++ ⟨nm, dpre ++ d :: dpost⟩ :: L2).map ParsedModule.deps_for_graph).map Prod.fst := by
    rw [inputs_fst, inputs_fst]
    exact modNames_insert_eq L1 L2 nm _ _
  unfold buildEdges
  rw [hnames]
  simp only [List.map_append, List.map_cons, ParsedModule.deps_for_graph,
    List.flatMap_append, List.flatMap_cons]
  exact listRel_append_left_right _ _ (buildRow_dup _ nm dpre dpost d)

/-- C8: duplicate dependency edges are harmless — duplicating an occurrence
of an imported identifier in some module's import list leaves the result of
`sequence` unchanged: the same `Ok` compilation sequence, or a failure
carrying the same `ImportCycle` report. -/
theorem sequence_duplicate_import (L1 L2 : List ParsedModule) (nm : String)
    (dpre dpost : List String) (d : String) :
    sequence (L1 ++ ⟨nm, dpre ++ d :: d :: dpost⟩ :: L2) =
      sequence (L1 ++ ⟨nm, dpre ++ d :: dpost⟩ :: L2) := by
  have hedges : listRel (modGraph (L1 ++ ⟨nm, dpre ++ d :: dpost⟩ :: L2)).edges
      (modGraph (L1 ++ ⟨nm, dpre ++ d :: d :: dpost⟩ :: L2)).edges :=
    buildEdges_dup L1 L2 nm dpre dpost d
  have hnum : (modGraph (L1 ++ ⟨nm, dpre ++ d :: d :: dpost⟩ :: L2)).numNodes =
      (modGraph (L1 ++ ⟨nm, dpre ++ d :: dpost⟩ :: L2)).numNodes := by
    rw [modGraph_numNodes, modGraph_numNodes]
    simp
  have hr : RangeOK (modGraph (L1 ++ ⟨nm, dpre ++ d :: dpost⟩ :: L2)) :=
    seqGraph_rangeOK _
  have hr' : RangeOK (modGraph (L1 ++ ⟨nm, dpre ++ d :: d :: dpost⟩ :: L2)) :=
    seqGraph_rangeOK _
  have htopo : toposort (modGraph (L1 ++ ⟨nm, dpre ++ d :: d :: dpost⟩ :: L2)) =
      toposort (modGraph (L1 ++ ⟨nm, dpre ++ d :: dpost⟩ :: L2)) :=
    toposort_dup _ _ hr hr' hnum hedges
  have hmn : modNames (L1 ++ ⟨nm, dpre ++ d :: d :: dpost⟩ :: L2) =
      modNames (L1 ++ ⟨nm, dpre ++ d :: dpost⟩ :: L2) :=
    modNames_insert_eq L1 L2 nm _ _
  cases hts : toposort (modGraph (L1 ++ ⟨nm, dpre ++ d :: dpost⟩ :: L2)) with
  | ok ord =>
    rw [sequence_eq_ok hts, sequence_eq_ok (htopo.trans hts), hmn]
  | error e =>
    have he : e < (modGraph (L1 ++ ⟨nm, dpre ++ d :: dpost⟩ :: L2)).numNodes :=
      (toposort_err_reaches hr hts).2
    cases hfc : find_cycle (modGraph (L1 ++ ⟨nm, dpre ++ d :: dpost⟩ :: L2)) e with
    | none =>
      exact absurd hfc (fcRun_topoFuel_some _ hr e e he)
    | some r =>
      have hfc' : find_cycle (modGraph (L1 ++ ⟨nm, dpre ++ d :: d :: dpost⟩ :: L2)) e =
          some r :=
        (find_cycle_dup _ _ hr hr' hnum hedges e he).trans hfc
      rw [sequence_eq_err_fc hts hfc, sequence_eq_err_fc (htopo.trans hts) hfc', hmn]

end Aiken
